import Mathlib

/-!
Verification of the NML/NMX skeleton I/O module (`navis/io/nmx_io.py`).

The module decodes XML-encoded neuron skeletons (an unordered node table plus
an undirected edge list) into a rooted parent-pointer tree, and encodes such
trees back to XML.  The core is `NMLReader.read_nml`'s canonicalization:

    G = nx.Graph()
    G.add_edges_from(edges.values)
    tree = nx.bfs_tree(G, list(G.nodes)[0])
    edges = pd.DataFrame(list(tree.edges), columns=['source', 'target'])
    nodes['parent_id'] = edges.set_index('target')
        .reindex(nodes.node_id.values).source.values
    nodes['parent_id'] = nodes.parent_id.fillna(-1).astype(...)
    nodes.sort_values('node_id', inplace=True)

We embed the networkx graph construction (insertion-ordered node list and
insertion-ordered adjacency lists, as `nx.Graph` keeps them in dict order),
the breadth-first tree construction of `nx.bfs_tree`, and the pandas
parent-assignment (first tree edge whose target is the node, else -1).
-/

namespace Nmx

/-- Append `x` to `l` unless already present: one step of dict-keyed insertion,
as `nx.Graph.add_edge` records nodes and neighbours in Python dicts. -/
def insertNew (l : List Nat) (x : Nat) : List Nat :=
  if x ∈ l then l else l ++ [x]

/-- The node list of `nx.Graph()` after `G.add_edges_from(edges)`: endpoints in
first-appearance order (`list(G.nodes)`). -/
def nxNodes (edges : List (Nat × Nat)) : List Nat :=
  edges.foldl (fun acc e => insertNew (insertNew acc e.1) e.2) []

/-- The adjacency list of node `n` in `nx.Graph()` after `add_edges_from(edges)`:
neighbours of `n` in first-appearance order (Python dict insertion order). -/
def nxAdj (edges : List (Nat × Nat)) (n : Nat) : List Nat :=
  edges.foldl (fun acc e =>
    if e.1 = n then insertNew acc e.2
    else if e.2 = n then insertNew acc e.1
    else acc) []

/-- The edges of `nx.bfs_tree(G, source)` in yield order: a FIFO queue of
discovered nodes; the front node's adjacency is scanned in order and every
not-yet-visited neighbour is discovered (yielding the tree edge
`(front, neighbour)`) and enqueued.  `fuel` is an upper bound on the number of
loop iterations; `nmlTree` supplies a provably sufficient amount, so the
embedding computes exactly what the (always-terminating) Python loop does. -/
def bfsLoop (edges : List (Nat × Nat)) : Nat → List Nat → List Nat → List (Nat × Nat)
  | _, [], _ => []
  | 0, _ :: _, _ => []
  | fuel + 1, q :: qs, visited =>
    let kids := (nxAdj edges q).filter (fun c => !decide (c ∈ visited))
    kids.map (fun c => (q, c)) ++ bfsLoop edges fuel (qs ++ kids) (visited ++ kids)

/-- `nx.bfs_tree(G, list(G.nodes)[0]).edges`: `none` models the `IndexError`
raised by `list(G.nodes)[0]` when the graph has no nodes (empty edge list). -/
def nmlTree (edges : List (Nat × Nat)) : Option (List (Nat × Nat)) :=
  match nxNodes edges with
  | [] => none
  | s :: _ => some (bfsLoop edges (nxNodes edges).length [s] [s])

/-- `edges.set_index('target').reindex([n]).source.values` then `fillna(-1)`:
the source of the (unique) BFS tree edge whose target is `n`, else -1. -/
def nmlParent (tree : List (Nat × Nat)) (n : Nat) : Int :=
  match tree.find? (fun e => decide (e.2 = n)) with
  | some e => (e.1 : Int)
  | none => -1

/-- Stable insertion into a list sorted by `key`. -/
def insertByKey (key : α → Nat) (x : α) : List α → List α
  | [] => [x]
  | y :: ys => if key y < key x then y :: insertByKey key x ys else x :: y :: ys

/-- Stable ascending sort by `key` (`nodes.sort_values('node_id')`). -/
def sortByKey (key : α → Nat) : List α → List α
  | [] => []
  | x :: xs => insertByKey key x (sortByKey key xs)

/-- The topology part of `NMLReader.read_nml`: the parent mapping produced for
the node table `nodes` given the raw undirected edge list `edges`, as a list of
`(node_id, parent_id)` rows sorted by `node_id`.  `none` models the two error
exits of the source: the `IndexError` of `list(G.nodes)[0]` on an empty graph
(empty edge list), and the `AttributeError` of `nodes.node_id` on an empty
node table (a column-less DataFrame has no `node_id` attribute), which is
reached after the BFS, at the parent-assignment line. -/
def canonicalize (nodes : List Nat) (edges : List (Nat × Nat)) :
    Option (List (Nat × Int)) :=
  match nmlTree edges with
  | none => none
  | some t =>
    if nodes = [] then none
    else some (sortByKey Prod.fst (nodes.map (fun n => (n, nmlParent t n))))

/-- One decoded `<node .../>` element: its id and its raw attribute strings. -/
structure NmlNode where
  id : Nat
  x : String
  y : String
  z : String
  radius : String
deriving Repr, DecidableEq

/-- One row of the node table produced by `read_nml`, after dtype coercion of
the position/radius attributes (the coercion function is the configured
`astype`, passed in as a parameter) and parent assignment. -/
structure SkelRow (V : Type) where
  node_id : Nat
  x : V
  y : V
  z : V
  radius : V
  parent_id : Int
deriving Repr, DecidableEq

/-- `NMLReader.read_nml` on a decoded `thing` element: coerce the node
attributes with `coerce` (the pandas `astype` for the configured precision),
canonicalize the topology, and sort the rows by `node_id`.  As in
`canonicalize`, `none` covers both error exits: `IndexError` on an empty edge
list, and `AttributeError` on an empty node table (`nodes.node_id` on a
column-less DataFrame). -/
def readNml (coerce : String → V) (nodeTab : List NmlNode)
    (edges : List (Nat × Nat)) : Option (List (SkelRow V)) :=
  match nmlTree edges with
  | none => none
  | some t =>
    if nodeTab = [] then none
    else some (sortByKey SkelRow.node_id (nodeTab.map (fun n =>
      ⟨n.id, coerce n.x, coerce n.y, coerce n.z, coerce n.radius,
        nmlParent t n.id⟩)))

/-- One row of the SWC-style table used by `write_nml` as the basis for nodes
and edges: reindexed id (`PointNo`), reindexed parent (`Parent`, -1 for the
root) and the position/radius values. -/
structure SwcRow (V : Type) where
  pointNo : Nat
  parent : Int
  x : V
  y : V
  z : V
  radius : V
deriving Repr, DecidableEq

/-- Modelled from the spec: `make_swc_table` lives in `swc_io.py`, which is not
among the embedded sources; the spec describes it as "a table-export helper
that converts a tree-record into a reindexed node/edge table (with an optional
exported old-id→new-id map) suitable for direct emission" and notes that
"identifiers may be renumbered".  We model the renumbering: a node is mapped
to the 1-based index of the first row carrying its identifier. -/
def renumber (rows : List (SkelRow V)) (old : Nat) : Option Nat :=
  match rows with
  | [] => none
  | r :: rest => if r.node_id = old then some 1 else (renumber rest old).map (· + 1)

/-- Modelled from the spec: the renumbered identifier of a node (0 if absent,
which well-formed inputs never hit). -/
def newIdOf (rows : List (SkelRow V)) (old : Nat) : Nat :=
  (renumber rows old).getD 0

/-- Modelled from the spec: `renumber` keyed by the integer-valued parent
column. -/
def renumberInt (rows : List (SkelRow V)) (p : Int) : Option Int :=
  match rows with
  | [] => none
  | r :: rest =>
    if (r.node_id : Int) = p then some 1 else (renumberInt rest p).map (· + 1)

/-- Modelled from the spec: the parent column of `make_swc_table`'s output,
remapped through the same renumbering as `newIdOf`; the root sentinel -1 is
kept. -/
def newParentOf (rows : List (SkelRow V)) (p : Int) : Int :=
  if p = -1 then -1 else (renumberInt rows p).getD (-1)

/-- Modelled from the spec: `make_swc_table` as used by `write_nml` (labels and
connectors disabled) — one output row per input row, with renumbered id and
parent and the position/radius values carried over. -/
def make_swc_table (rows : List (SkelRow V)) : List (SwcRow V) :=
  rows.map (fun r =>
    ⟨newIdOf rows r.node_id, newParentOf rows r.parent_id,
      r.x, r.y, r.z, r.radius⟩)

/-- One emitted `<node .../>` element of `write_nml`.  In the source the
attributes are written as `str(int(row["PointNo"]))` for the id and
`str(row[...])` for radius/x/y/z; we keep the id as the integer it renders and
the value attributes as the strings produced by the serializer `serial`. -/
structure XmlNodeEl where
  id : Nat
  radius : String
  x : String
  y : String
  z : String
deriving Repr, DecidableEq

/-- One emitted `<edge source=... target=.../>` element of `write_nml`; the
source writes `str(int(row["Parent"]))` and `str(int(row["PointNo"]))`, kept
here as the integers those decimal strings render. -/
structure XmlEdgeEl where
  source : Int
  target : Nat
deriving Repr, DecidableEq

/-- The per-row emission loop of `write_nml`: one `<node>` element per SWC row,
and, for every row with `Parent != -1`, one `<edge>` element with
`source = Parent` and `target = PointNo`.  Returns the children of the
`<nodes>` and `<edges>` elements respectively. -/
def writeNmlElements (serial : V → String) (swc : List (SwcRow V)) :
    List XmlNodeEl × List XmlEdgeEl :=
  (swc.map (fun row =>
      ⟨row.pointNo, serial row.radius, serial row.x, serial row.y, serial row.z⟩),
   swc.filterMap (fun row =>
      if row.parent ≠ -1 then some ⟨row.parent, row.pointNo⟩ else none))

/-!
### The NMX archive reader (`NMXReader.read_buffer`)

    if not isinstance(f.read(0), bytes):
        raise ValueError(f'Expected bytes, got "..."')
    zip = ZipFile(f)
    for f in zip.filelist:
        if f.filename.endswith('.nml') and 'skeleton' in f.filename:
            attrs['file'] = f.filename
            attrs['id'] = f.filename.split('/')[0]
            return self.read_nml(zip.read(f), attrs=attrs)
    logger.warning(f'Skipped "...": failed to import skeleton.')

Note that the loop variable shadows the buffer `f`: after an unsuccessful loop
the warning reads `f.filename` from the *last* zip member, and if the archive
has no members at all it reads `.filename` from the buffer object, which has
no such attribute (`AttributeError`).
-/

/-- Python exceptions the archive reader can raise, by their Python class. -/
inductive PyError
  | valueError
  | badZipFile
  | typeError
  | attributeError
  | indexError
deriving Repr, DecidableEq

/-- A zip member: its path inside the archive and its decoded `.nml` content
(node table and edge list of the single `thing` element). -/
structure ZipMember where
  filename : String
  nodeTab : List NmlNode
  edges : List (Nat × Nat)

/-- The buffer handed to `NMXReader.read_buffer`: either a text-mode stream
(its `read` yields `str`) or a byte stream; `ZipFile` then either rejects the
bytes (`none`, modelling `BadZipFile`) or exposes the member list. -/
inductive NmxBuffer
  | text (s : String)
  | bytes (zipfile : Option (List ZipMember))

/-- Whether `pat` occurs at the start of `s`. -/
def listStartsWith [DecidableEq α] : List α → List α → Bool
  | [], _ => true
  | _ :: _, [] => false
  | p :: ps, c :: cs => decide (p = c) && listStartsWith ps cs

/-- Whether `pat` occurs as a contiguous run somewhere in `s` (Python `in`). -/
def listSub [DecidableEq α] (pat : List α) : List α → Bool
  | [] => listStartsWith pat []
  | c :: cs => listStartsWith pat (c :: cs) || listSub pat cs

/-- Whether `pat` occurs at the end of `s` (Python `str.endswith`). -/
def listEndsWith [DecidableEq α] (pat s : List α) : Bool :=
  listStartsWith pat.reverse s.reverse

/-- The member-selection test: `f.filename.endswith('.nml') and 'skeleton' in
f.filename`. -/
def qualifies (name : String) : Bool :=
  listEndsWith ".nml".data name.data && listSub "skeleton".data name.data

/-- The characters before the first `'/'`. -/
def takeUntilSlash : List Char → List Char
  | [] => []
  | c :: rest => if c = '/' then [] else c :: takeUntilSlash rest

/-- `name.split('/')[0]`. -/
def topSegment (name : String) : String :=
  ⟨takeUntilSlash name.data⟩

/-- The warning text logged when no member qualifies, with `name` the filename
of the last zip member (the leaked loop variable). -/
def warnMsg (name : String) : String :=
  "Skipped \"" ++ topSegment name ++ ".nmx\": failed to import skeleton."

/-- A successful archive read: the decoded rows plus the attribute dict, which
the reader has extended in place with the `file` and `id` keys. -/
structure NmxResult (V : Type) where
  rows : List (SkelRow V)
  attrs : List (String × String)
deriving Repr, DecidableEq

/-- The body of the `for` loop once a qualifying member is found: mutate the
attrs dict (a `TypeError` if `attrs` is `None`), then delegate to `read_nml`,
whose failures propagate.  `readNml`'s `none` covers both of its error exits
(`IndexError` on an empty edge list, `AttributeError` on an empty node table);
this model reports a failed decode as `.error .indexError`, and no claim rests
on which of the two exceptions escaped. -/
def nmxHandle (coerce : String → V) (attrs : Option (List (String × String)))
    (m : ZipMember) : Except PyError (Option (NmxResult V) × List String) :=
  match attrs with
  | none => .error .typeError
  | some a =>
    match readNml coerce m.nodeTab m.edges with
    | none => .error .indexError
    | some rows =>
      .ok (some ⟨rows, a ++ [("file", m.filename), ("id", topSegment m.filename)]⟩, [])

/-- The member loop of `NMXReader.read_buffer`.  The empty member list ends
with the buffer still bound to `f`, so the warning line raises
`AttributeError`; otherwise, if no member qualifies, the function logs the
warning built from the last member's filename and falls off the end
(returning `None`). -/
def nmxLoop (coerce : String → V) (attrs : Option (List (String × String))) :
    List ZipMember → Except PyError (Option (NmxResult V) × List String)
  | [] => .error .attributeError
  | [m] =>
    if qualifies m.filename then nmxHandle coerce attrs m
    else .ok (none, [warnMsg m.filename])
  | m :: rest =>
    if qualifies m.filename then nmxHandle coerce attrs m
    else nmxLoop coerce attrs rest

/-- `NMXReader.read_buffer`: reject text-mode buffers before opening the zip,
open the zip, then scan the member list. -/
def nmxReadBuffer (coerce : String → V) (buf : NmxBuffer)
    (attrs : Option (List (String × String))) :
    Except PyError (Option (NmxResult V) × List String) :=
  match buf with
  | .text _ => .error .valueError
  | .bytes none => .error .badZipFile
  | .bytes (some members) => nmxLoop coerce attrs members

/-! ### Basic properties of the graph construction -/

theorem mem_insertNew {l : List Nat} {x a : Nat} :
    a ∈ insertNew l x ↔ a ∈ l ∨ a = x := by
  unfold insertNew
  split
  · rename_i hx
    exact ⟨Or.inl, fun h => h.elim id (fun h2 => h2 ▸ hx)⟩
  · simp

theorem insertNew_nodup {l : List Nat} {x : Nat} (h : l.Nodup) :
    (insertNew l x).Nodup := by
  unfold insertNew
  split
  · exact h
  · rename_i hx
    refine List.Nodup.append h (List.nodup_singleton x) ?_
    intro a ha hax
    simp only [List.mem_singleton] at hax
    exact hx (hax ▸ ha)

theorem insertNew_ne_nil {l : List Nat} {x : Nat} : insertNew l x ≠ [] := by
  unfold insertNew
  split <;> simp_all
  rintro rfl
  simp_all

theorem head?_insertNew {l : List Nat} {x : Nat} (h : l ≠ []) :
    (insertNew l x).head? = l.head? := by
  unfold insertNew
  split
  · rfl
  · cases l with
    | nil => exact absurd rfl h
    | cons a l => rfl

theorem mem_foldl_insertPair {es : List (Nat × Nat)} {acc : List Nat} {a : Nat} :
    a ∈ es.foldl (fun acc e => insertNew (insertNew acc e.1) e.2) acc ↔
      a ∈ acc ∨ ∃ e ∈ es, a = e.1 ∨ a = e.2 := by
  induction es generalizing acc with
  | nil => simp
  | cons e es ih =>
    simp only [List.foldl_cons, ih, mem_insertNew, List.mem_cons]
    constructor
    · rintro (((h | h) | h) | ⟨e', he', h⟩)
      · exact Or.inl h
      · exact Or.inr ⟨e, Or.inl rfl, Or.inl h⟩
      · exact Or.inr ⟨e, Or.inl rfl, Or.inr h⟩
      · exact Or.inr ⟨e', Or.inr he', h⟩
    · rintro (h | ⟨e', (rfl | he'), h⟩)
      · exact Or.inl (Or.inl (Or.inl h))
      · rcases h with h | h
        · exact Or.inl (Or.inl (Or.inr h))
        · exact Or.inl (Or.inr h)
      · exact Or.inr ⟨e', he', h⟩

theorem mem_nxNodes {edges : List (Nat × Nat)} {a : Nat} :
    a ∈ nxNodes edges ↔ ∃ e ∈ edges, a = e.1 ∨ a = e.2 := by
  unfold nxNodes
  simp [mem_foldl_insertPair]

theorem foldl_insertPair_nodup (es : List (Nat × Nat)) (acc : List Nat)
    (h : acc.Nodup) :
    (es.foldl (fun acc e => insertNew (insertNew acc e.1) e.2) acc).Nodup := by
  induction es generalizing acc with
  | nil => exact h
  | cons e es ih => exact ih _ (insertNew_nodup (insertNew_nodup h))

theorem nxNodes_nodup (edges : List (Nat × Nat)) : (nxNodes edges).Nodup :=
  foldl_insertPair_nodup edges [] List.nodup_nil

theorem mem_foldl_insertAdj {es : List (Nat × Nat)} {acc : List Nat} {n c : Nat} :
    c ∈ es.foldl (fun acc e =>
        if e.1 = n then insertNew acc e.2
        else if e.2 = n then insertNew acc e.1
        else acc) acc ↔
      c ∈ acc ∨ ∃ e ∈ es, (e.1 = n ∧ c = e.2) ∨ (e.2 = n ∧ c = e.1) := by
  induction es generalizing acc with
  | nil => simp
  | cons e es ih =>
    simp only [List.foldl_cons, List.mem_cons]
    by_cases h1 : e.1 = n
    · simp only [if_pos h1, ih, mem_insertNew]
      constructor
      · rintro ((h | h) | ⟨e', he', h⟩)
        · exact Or.inl h
        · exact Or.inr ⟨e, Or.inl rfl, Or.inl ⟨h1, h⟩⟩
        · exact Or.inr ⟨e', Or.inr he', h⟩
      · rintro (h | ⟨e', (rfl | he'), h⟩)
        · exact Or.inl (Or.inl h)
        · rcases h with ⟨_, h⟩ | ⟨h2, h⟩
          · exact Or.inl (Or.inr h)
          · exact Or.inl (Or.inr (by omega))
        · exact Or.inr ⟨e', he', h⟩
    · by_cases h2 : e.2 = n
      · simp only [if_neg h1, if_pos h2, ih, mem_insertNew]
        constructor
        · rintro ((h | h) | ⟨e', he', h⟩)
          · exact Or.inl h
          · exact Or.inr ⟨e, Or.inl rfl, Or.inr ⟨h2, h⟩⟩
          · exact Or.inr ⟨e', Or.inr he', h⟩
        · rintro (h | ⟨e', (rfl | he'), h⟩)
          · exact Or.inl (Or.inl h)
          · rcases h with ⟨h1', _⟩ | ⟨_, h⟩
            · exact absurd h1' h1
            · exact Or.inl (Or.inr h)
          · exact Or.inr ⟨e', he', h⟩
      · simp only [if_neg h1, if_neg h2, ih]
        constructor
        · rintro (h | ⟨e', he', h⟩)
          · exact Or.inl h
          · exact Or.inr ⟨e', Or.inr he', h⟩
        · rintro (h | ⟨e', (rfl | he'), h⟩)
          · exact Or.inl h
          · rcases h with ⟨h1', _⟩ | ⟨h2', _⟩
            · exact absurd h1' h1
            · exact absurd h2' h2
          · exact Or.inr ⟨e', he', h⟩

theorem mem_nxAdj {edges : List (Nat × Nat)} {n c : Nat} :
    c ∈ nxAdj edges n ↔ (n, c) ∈ edges ∨ (c, n) ∈ edges := by
  unfold nxAdj
  rw [mem_foldl_insertAdj]
  simp only [List.not_mem_nil, false_or]
  constructor
  · rintro ⟨e, he, ⟨h1, h2⟩ | ⟨h1, h2⟩⟩
    · left
      have h3 : (n, c) = e := by
        rcases e with ⟨a, b⟩
        dsimp only at h1 h2
        simp only [Prod.mk.injEq]
        exact ⟨h1.symm, h2⟩
      rwa [h3]
    · right
      have h3 : (c, n) = e := by
        rcases e with ⟨a, b⟩
        dsimp only at h1 h2
        simp only [Prod.mk.injEq]
        exact ⟨h2, h1.symm⟩
      rwa [h3]
  · rintro (h | h)
    · exact ⟨(n, c), h, Or.inl ⟨rfl, rfl⟩⟩
    · exact ⟨(c, n), h, Or.inr ⟨rfl, rfl⟩⟩

theorem foldl_insertAdj_nodup (es : List (Nat × Nat)) (n : Nat) (acc : List Nat)
    (h : acc.Nodup) :
    (es.foldl (fun acc e =>
      if e.1 = n then insertNew acc e.2
      else if e.2 = n then insertNew acc e.1
      else acc) acc).Nodup := by
  induction es generalizing acc with
  | nil => exact h
  | cons e es ih =>
    simp only [List.foldl_cons]
    apply ih
    by_cases h1 : e.1 = n
    · simp only [if_pos h1]
      exact insertNew_nodup h
    · by_cases h2 : e.2 = n
      · simp only [if_neg h1, if_pos h2]
        exact insertNew_nodup h
      · simp only [if_neg h1, if_neg h2]
        exact h

theorem nxAdj_nodup (edges : List (Nat × Nat)) (n : Nat) : (nxAdj edges n).Nodup :=
  foldl_insertAdj_nodup edges n [] List.nodup_nil

theorem nxAdj_sub {edges : List (Nat × Nat)} {n c : Nat} (h : c ∈ nxAdj edges n) :
    c ∈ nxNodes edges := by
  rw [mem_nxAdj] at h
  rw [mem_nxNodes]
  rcases h with h | h
  · exact ⟨(n, c), h, Or.inr rfl⟩
  · exact ⟨(c, n), h, Or.inl rfl⟩

theorem nxNodes_head {u v : Nat} {rest : List (Nat × Nat)} :
    ∃ tl, nxNodes ((u, v) :: rest) = u :: tl := by
  have hne : ∀ es : List (Nat × Nat), ∀ acc : List Nat, acc ≠ [] →
      (es.foldl (fun acc e => insertNew (insertNew acc e.1) e.2) acc) ≠ [] ∧
      (es.foldl (fun acc e => insertNew (insertNew acc e.1) e.2) acc).head? = acc.head? := by
    intro es
    induction es with
    | nil => exact fun acc h => ⟨h, rfl⟩
    | cons e es ih =>
      intro acc hacc
      have h1 : insertNew (insertNew acc e.1) e.2 ≠ [] := insertNew_ne_nil
      obtain ⟨hne', hh⟩ := ih _ h1
      simp only [List.foldl_cons]
      refine ⟨hne', ?_⟩
      rw [hh, head?_insertNew (l := insertNew acc e.1) insertNew_ne_nil,
        head?_insertNew hacc]
  unfold nxNodes
  simp only [List.foldl_cons]
  have h0 : insertNew (insertNew ([] : List Nat) u) v ≠ [] := insertNew_ne_nil
  obtain ⟨hne', hh⟩ := hne rest _ h0
  have hh0 : (insertNew (insertNew ([] : List Nat) u) v).head? = some u := by
    show (insertNew (insertNew [] u) v).head? = some u
    rw [head?_insertNew (l := insertNew [] u) insertNew_ne_nil]
    rfl
  rw [hh0] at hh
  cases hfold : rest.foldl (fun acc e => insertNew (insertNew acc e.1) e.2)
      (insertNew (insertNew [] u) v) with
  | nil => exact absurd hfold hne'
  | cons a tl =>
    rw [hfold] at hh
    simp only [List.head?_cons, Option.some.injEq] at hh
    exact ⟨tl, by rw [hh]⟩

/-! ### The sort is a permutation -/

theorem perm_insertByKey (key : α → Nat) (x : α) (l : List α) :
    (insertByKey key x l).Perm (x :: l) := by
  induction l with
  | nil => exact List.Perm.refl _
  | cons y ys ih =>
    rw [insertByKey]
    split
    · exact ((ih.cons y).trans (List.Perm.swap x y ys)).symm.symm
    · exact List.Perm.refl _

theorem perm_sortByKey (key : α → Nat) (l : List α) :
    (sortByKey key l).Perm l := by
  induction l with
  | nil => exact List.Perm.refl _
  | cons x xs ih =>
    rw [sortByKey]
    exact (perm_insertByKey key x _).trans (ih.cons x)

theorem mem_sortByKey {key : α → Nat} {l : List α} {a : α} :
    a ∈ sortByKey key l ↔ a ∈ l :=
  (perm_sortByKey key l).mem_iff

theorem length_sortByKey (key : α → Nat) (l : List α) :
    (sortByKey key l).length = l.length :=
  (perm_sortByKey key l).length_eq

theorem countP_sortByKey (key : α → Nat) (l : List α) (p : α → Bool) :
    (sortByKey key l).countP p = l.countP p :=
  (perm_sortByKey key l).countP_eq p

/-! ### Discovery sequences

`GoodSeq seen l` says that the edge list `l` is a valid discovery sequence
starting from the already-seen node list `seen`: each edge goes from an
already-seen node to a brand-new node, which is then seen.  This is the shape
invariant of the BFS tree-edge output. -/

def GoodSeq : List Nat → List (Nat × Nat) → Prop
  | _, [] => True
  | seen, e :: rest => e.1 ∈ seen ∧ e.2 ∉ seen ∧ GoodSeq (seen ++ [e.2]) rest

theorem goodSeq_nil (seen : List Nat) : GoodSeq seen [] := trivial

theorem goodSeq_cons {seen : List Nat} {e : Nat × Nat} {rest : List (Nat × Nat)} :
    GoodSeq seen (e :: rest) ↔
      e.1 ∈ seen ∧ e.2 ∉ seen ∧ GoodSeq (seen ++ [e.2]) rest := Iff.rfl

theorem goodSeq_append {seen : List Nat} {l1 l2 : List (Nat × Nat)} :
    GoodSeq seen (l1 ++ l2) ↔
      GoodSeq seen l1 ∧ GoodSeq (seen ++ l1.map Prod.snd) l2 := by
  induction l1 generalizing seen with
  | nil => simp [goodSeq_nil, GoodSeq]
  | cons e rest ih =>
    simp only [List.cons_append, goodSeq_cons, ih, List.map_cons, List.append_assoc,
      List.singleton_append, and_assoc, List.nil_append]

/-- A sequence discovering `kids` (fresh, distinct) all from the seen node `q`. -/
theorem goodSeq_kids {q : Nat} {kids seen : List Nat} (hq : q ∈ seen)
    (hnd : kids.Nodup) (hfresh : ∀ c ∈ kids, c ∉ seen) :
    GoodSeq seen (kids.map (fun c => (q, c))) := by
  induction kids generalizing seen with
  | nil => exact goodSeq_nil seen
  | cons c cs ih =>
    rw [List.map_cons, goodSeq_cons]
    refine ⟨hq, hfresh c (List.mem_cons_self c cs), ?_⟩
    have hnd' := (List.nodup_cons.mp hnd)
    refine ih (List.mem_append_left _ hq) hnd'.2 ?_
    intro c' hc'
    rw [List.mem_append, List.mem_singleton]
    rintro (h | rfl)
    · exact hfresh c' (List.mem_cons_of_mem c hc') h
    · exact hnd'.1 hc'

theorem gs_target_not_seen {seen : List Nat} {l : List (Nat × Nat)} {e : Nat × Nat}
    (h : GoodSeq seen l) (he : e ∈ l) : e.2 ∉ seen := by
  induction l generalizing seen with
  | nil => cases he
  | cons e0 rest ih =>
    rw [goodSeq_cons] at h
    rcases List.mem_cons.mp he with rfl | he'
    · exact h.2.1
    · intro hmem
      exact ih h.2.2 he' (List.mem_append_left _ hmem)

theorem gs_source_mem {seen : List Nat} {l : List (Nat × Nat)} {e : Nat × Nat}
    (h : GoodSeq seen l) (he : e ∈ l) : e.1 ∈ seen ++ l.map Prod.snd := by
  induction l generalizing seen with
  | nil => cases he
  | cons e0 rest ih =>
    rw [goodSeq_cons] at h
    rcases List.mem_cons.mp he with rfl | he'
    · exact List.mem_append_left _ h.1
    · have := ih h.2.2 he'
      rw [List.mem_append] at this ⊢
      rcases this with h1 | h1
      · rw [List.mem_append, List.mem_singleton] at h1
        rcases h1 with h1 | h1
        · exact Or.inl h1
        · exact Or.inr (by rw [List.map_cons, h1]; exact List.mem_cons_self _ _)
      · exact Or.inr (by rw [List.map_cons]; exact List.mem_cons_of_mem _ h1)

theorem gs_targets_nodup {seen : List Nat} {l : List (Nat × Nat)}
    (h : GoodSeq seen l) : (l.map Prod.snd).Nodup := by
  induction l generalizing seen with
  | nil => exact List.nodup_nil
  | cons e0 rest ih =>
    rw [goodSeq_cons] at h
    rw [List.map_cons, List.nodup_cons]
    refine ⟨?_, ih h.2.2⟩
    intro hmem
    rw [List.mem_map] at hmem
    obtain ⟨e, he, hsnd⟩ := hmem
    have := gs_target_not_seen h.2.2 he
    rw [hsnd] at this
    exact this (List.mem_append_right _ (List.mem_singleton_self _))

theorem gs_no_self {seen : List Nat} {l : List (Nat × Nat)} {p : Nat}
    (h : GoodSeq seen l) (he : (p, p) ∈ l) : False := by
  induction l generalizing seen with
  | nil => cases he
  | cons e0 rest ih =>
    rw [goodSeq_cons] at h
    rcases List.mem_cons.mp he with heq | he'
    · rw [← heq] at h
      exact h.2.1 h.1
    · exact ih h.2.2 he'

theorem gs_no_reverse {seen : List Nat} {l : List (Nat × Nat)} {p c : Nat}
    (h : GoodSeq seen l) (h1 : (p, c) ∈ l) (h2 : (c, p) ∈ l) : False := by
  induction l generalizing seen with
  | nil => cases h1
  | cons e0 rest ih =>
    rw [goodSeq_cons] at h
    rcases List.mem_cons.mp h1 with heq1 | h1'
    · rcases List.mem_cons.mp h2 with heq2 | h2'
      · have hpc : (p, c) = (c, p) := heq1.trans heq2.symm
        rw [Prod.mk.injEq] at hpc
        rw [← heq1] at h
        exact h.2.1 (hpc.1 ▸ h.1)
      · rw [← heq1] at h
        have := gs_target_not_seen h.2.2 h2'
        exact this (List.mem_append_left _ h.1)
    · rcases List.mem_cons.mp h2 with heq2 | h2'
      · rw [← heq2] at h
        have := gs_target_not_seen h.2.2 h1'
        exact this (List.mem_append_left _ h.1)
      · exact ih h.2.2 h1' h2'

/-! ### BFS loop invariants -/

theorem kids_nodup (edges : List (Nat × Nat)) (q : Nat) (visited : List Nat) :
    ((nxAdj edges q).filter (fun c => !decide (c ∈ visited))).Nodup :=
  (nxAdj_nodup edges q).filter _

theorem kids_fresh {edges : List (Nat × Nat)} {q c : Nat} {visited : List Nat}
    (hc : c ∈ (nxAdj edges q).filter (fun c => !decide (c ∈ visited))) :
    c ∉ visited := by
  have := (List.mem_filter.mp hc).2
  simpa using this

theorem kids_adj {edges : List (Nat × Nat)} {q c : Nat} {visited : List Nat}
    (hc : c ∈ (nxAdj edges q).filter (fun c => !decide (c ∈ visited))) :
    c ∈ nxAdj edges q :=
  (List.mem_filter.mp hc).1

theorem mem_kids {edges : List (Nat × Nat)} {q c : Nat} {visited : List Nat} :
    c ∈ (nxAdj edges q).filter (fun c => !decide (c ∈ visited)) ↔
      c ∈ nxAdj edges q ∧ c ∉ visited := by
  rw [List.mem_filter]
  simp

/-- Removing freshly visited nodes shrinks the unvisited count by exactly their
number. -/
theorem unvisited_drop {A visited kids : List Nat} (hA : A.Nodup) (hk : kids.Nodup)
    (hsub : ∀ c ∈ kids, c ∈ A) (hdis : ∀ c ∈ kids, c ∉ visited) :
    (A.filter (fun n => !decide (n ∈ visited ++ kids))).length + kids.length
      = (A.filter (fun n => !decide (n ∈ visited))).length := by
  classical
  have h1 : (A.filter (fun n => !decide (n ∈ visited))).Nodup := hA.filter _
  have h2 : (A.filter (fun n => !decide (n ∈ visited ++ kids))).Nodup := hA.filter _
  rw [← List.toFinset_card_of_nodup h1, ← List.toFinset_card_of_nodup h2,
      ← List.toFinset_card_of_nodup hk]
  have hS2 : (A.filter (fun n => !decide (n ∈ visited ++ kids))).toFinset
      = (A.filter (fun n => !decide (n ∈ visited))).toFinset \ kids.toFinset := by
    ext x
    simp only [List.mem_toFinset, List.mem_filter, Finset.mem_sdiff, List.mem_append,
      Bool.not_eq_true', decide_eq_false_iff_not]
    tauto
  have hKsub : kids.toFinset ⊆ (A.filter (fun n => !decide (n ∈ visited))).toFinset := by
    intro x hx
    simp only [List.mem_toFinset] at hx
    simp only [List.mem_toFinset, List.mem_filter, Bool.not_eq_true',
      decide_eq_false_iff_not]
    exact ⟨hsub x hx, hdis x hx⟩
  rw [hS2, Finset.card_sdiff hKsub]
  have := Finset.card_le_card hKsub
  omega

/-- The BFS output is a discovery sequence from the visited list. -/
theorem bfs_goodSeq (edges : List (Nat × Nat)) (fuel : Nat) (queue visited : List Nat)
    (hq : ∀ x ∈ queue, x ∈ visited) :
    GoodSeq visited (bfsLoop edges fuel queue visited) := by
  induction fuel generalizing queue visited with
  | zero => cases queue <;> exact goodSeq_nil _
  | succ fuel ih =>
    cases queue with
    | nil => exact goodSeq_nil _
    | cons q qs =>
      simp only [bfsLoop]
      rw [goodSeq_append]
      set kids := (nxAdj edges q).filter (fun c => !decide (c ∈ visited)) with hkids
      constructor
      · exact goodSeq_kids (hq q (List.mem_cons_self q qs)) (kids_nodup edges q visited)
          (fun c hc => kids_fresh hc)
      · have hts : (kids.map (fun c => (q, c))).map Prod.snd = kids := by
          simp
        rw [hts]
        refine ih (qs ++ kids) (visited ++ kids) ?_
        intro x hx
        rw [List.mem_append] at hx ⊢
        rcases hx with hx | hx
        · exact Or.inl (hq x (List.mem_cons_of_mem q hx))
        · exact Or.inr hx

/-- Every BFS tree edge is an adjacency of the underlying graph. -/
theorem bfs_edges_adj (edges : List (Nat × Nat)) (fuel : Nat)
    (queue visited : List Nat) :
    ∀ e ∈ bfsLoop edges fuel queue visited, e.2 ∈ nxAdj edges e.1 := by
  induction fuel generalizing queue visited with
  | zero => cases queue <;> intro e he <;> cases he
  | succ fuel ih =>
    cases queue with
    | nil => intro e he; cases he
    | cons q qs =>
      simp only [bfsLoop]
      intro e he
      rw [List.mem_append] at he
      rcases he with he | he
      · rw [List.mem_map] at he
        obtain ⟨c, hc, rfl⟩ := he
        exact kids_adj hc
      · exact ih _ _ e he

/-- With sufficient fuel, the set of nodes seen after the BFS loop (the initial
visited list plus all tree-edge targets) is closed under adjacency, provided
every already-visited node that is no longer queued has already had its
neighbourhood explored. -/
theorem bfs_closure (edges : List (Nat × Nat)) (fuel : Nat)
    (queue visited : List Nat)
    (hfuel : ((nxNodes edges).filter (fun n => !decide (n ∈ visited))).length
      + queue.length ≤ fuel)
    (hq : ∀ x ∈ queue, x ∈ visited)
    (hv : ∀ x ∈ visited, x ∈ nxNodes edges)
    (hcl : ∀ v ∈ visited, v ∉ queue → ∀ c ∈ nxAdj edges v, c ∈ visited) :
    ∀ v ∈ visited ++ (bfsLoop edges fuel queue visited).map Prod.snd,
      ∀ c ∈ nxAdj edges v,
        c ∈ visited ++ (bfsLoop edges fuel queue visited).map Prod.snd := by
  induction fuel generalizing queue visited with
  | zero =>
    cases queue with
    | nil =>
      intro v hv' c hc
      simp only [bfsLoop, List.map_nil, List.append_nil] at hv' ⊢
      exact hcl v hv' (List.not_mem_nil v) c hc
    | cons q qs => simp at hfuel
  | succ fuel ih =>
    cases queue with
    | nil =>
      intro v hv' c hc
      simp only [bfsLoop, List.map_nil, List.append_nil] at hv' ⊢
      exact hcl v hv' (List.not_mem_nil v) c hc
    | cons q qs =>
      simp only [bfsLoop]
      set kids := (nxAdj edges q).filter (fun c => !decide (c ∈ visited)) with hkids
      have hknd : kids.Nodup := kids_nodup edges q visited
      have hksub : ∀ c ∈ kids, c ∈ nxNodes edges :=
        fun c hc => nxAdj_sub (kids_adj hc)
      have hkfresh : ∀ c ∈ kids, c ∉ visited := fun c hc => kids_fresh hc
      have hdrop := unvisited_drop (nxNodes_nodup edges) hknd hksub hkfresh
      have hfuel' : ((nxNodes edges).filter
            (fun n => !decide (n ∈ visited ++ kids))).length
          + (qs ++ kids).length ≤ fuel := by
        rw [List.length_append]
        simp only [List.length_cons] at hfuel
        omega
      have hq' : ∀ x ∈ qs ++ kids, x ∈ visited ++ kids := by
        intro x hx
        rw [List.mem_append] at hx ⊢
        rcases hx with hx | hx
        · exact Or.inl (hq x (List.mem_cons_of_mem q hx))
        · exact Or.inr hx
      have hv' : ∀ x ∈ visited ++ kids, x ∈ nxNodes edges := by
        intro x hx
        rw [List.mem_append] at hx
        rcases hx with hx | hx
        · exact hv x hx
        · exact hksub x hx
      have hcl' : ∀ v ∈ visited ++ kids, v ∉ qs ++ kids →
          ∀ c ∈ nxAdj edges v, c ∈ visited ++ kids := by
        intro v hvm hvq c hc
        rw [List.mem_append] at hvm
        rw [List.mem_append] at hvq
        push_neg at hvq
        rcases hvm with hvm | hvm
        · by_cases hvq2 : v = q
          · subst hvq2
            rw [List.mem_append]
            by_cases hcv : c ∈ visited
            · exact Or.inl hcv
            · exact Or.inr (mem_kids.mpr ⟨hc, hcv⟩)
          · have : v ∉ q :: qs := by
              rw [List.mem_cons]
              push_neg
              exact ⟨hvq2, hvq.1⟩
            exact List.mem_append_left _ (hcl v hvm this c hc)
        · exact absurd hvm hvq.2
      have hrec := ih (qs ++ kids) (visited ++ kids) hfuel' hq' hv' hcl'
      intro v hvm c hc
      have hts : ((kids.map (fun c => (q, c))
          ++ bfsLoop edges fuel (qs ++ kids) (visited ++ kids)).map Prod.snd)
          = kids ++ (bfsLoop edges fuel (qs ++ kids) (visited ++ kids)).map Prod.snd := by
        simp
      rw [hts] at hvm ⊢
      rw [show visited ++ (kids ++ (bfsLoop edges fuel (qs ++ kids)
          (visited ++ kids)).map Prod.snd)
        = (visited ++ kids) ++ (bfsLoop edges fuel (qs ++ kids)
          (visited ++ kids)).map Prod.snd from (List.append_assoc _ _ _).symm] at hvm ⊢
      exact hrec v hvm c hc

/-- Everything reachable from a seen node is seen after a closed exploration. -/
theorem reach_mem {edges : List (Nat × Nat)} {V : List Nat}
    (hclosed : ∀ v ∈ V, ∀ c ∈ nxAdj edges v, c ∈ V) {s n : Nat} (hs : s ∈ V)
    (h : Relation.ReflTransGen (fun a b => b ∈ nxAdj edges a) s n) : n ∈ V := by
  induction h with
  | refl => exact hs
  | tail _ hstep ih => exact hclosed _ ih _ hstep

/-! ### Parent lookup -/

theorem nmlParent_eq_neg_one_iff {tree : List (Nat × Nat)} {n : Nat} :
    nmlParent tree n = -1 ↔ n ∉ tree.map Prod.snd := by
  unfold nmlParent
  constructor
  · intro h hmem
    rw [List.mem_map] at hmem
    obtain ⟨e, he, hsnd⟩ := hmem
    cases hfind : tree.find? (fun e => decide (e.2 = n)) with
    | none =>
      have := List.find?_eq_none.mp hfind e he
      simp [hsnd] at this
    | some e' =>
      rw [hfind] at h
      change (e'.1 : Int) = -1 at h
      omega
  · intro hmem
    cases hfind : tree.find? (fun e => decide (e.2 = n)) with
    | none => rfl
    | some e' =>
      have h1 := List.find?_some hfind
      have h2 := List.mem_of_find?_eq_some hfind
      simp only [decide_eq_true_eq] at h1
      exact absurd (List.mem_map.mpr ⟨e', h2, h1⟩) hmem

theorem nmlParent_ne_neg_one {tree : List (Nat × Nat)} {n : Nat}
    (h : nmlParent tree n ≠ -1) :
    ∃ e ∈ tree, e.2 = n ∧ nmlParent tree n = (e.1 : Int) := by
  unfold nmlParent at h ⊢
  cases hfind : tree.find? (fun e => decide (e.2 = n)) with
  | none => rw [hfind] at h; exact absurd rfl h
  | some e =>
    have h1 := List.find?_some hfind
    have h2 := List.mem_of_find?_eq_some hfind
    simp only [decide_eq_true_eq] at h1
    exact ⟨e, h2, h1, rfl⟩

theorem nmlParent_of_mem {tree : List (Nat × Nat)} {p c : Nat}
    (hnd : (tree.map Prod.snd).Nodup) (hmem : (p, c) ∈ tree) :
    nmlParent tree c = (p : Int) := by
  induction tree with
  | nil => cases hmem
  | cons e rest ih =>
    rw [List.map_cons, List.nodup_cons] at hnd
    rcases List.mem_cons.mp hmem with heq | hmem'
    · unfold nmlParent
      rw [List.find?_cons_of_pos _ (by rw [← heq]; simp)]
      rw [← heq]
    · by_cases hc : e.2 = c
      · exact absurd (hc ▸ List.mem_map.mpr ⟨(p, c), hmem', rfl⟩) hnd.1
      · unfold nmlParent
        rw [List.find?_cons_of_neg _ (by simpa using hc)]
        exact ih hnd.2 hmem'

/-- Unfolding `canonicalize` on the success path: BFS succeeded and the node
table is nonempty. -/
theorem canonicalize_eq {nodes : List Nat} {edges t : List (Nat × Nat)}
    (ht : nmlTree edges = some t) (hnn : nodes ≠ []) :
    canonicalize nodes edges
      = some (sortByKey Prod.fst (nodes.map (fun n => (n, nmlParent t n)))) := by
  rw [canonicalize, ht]
  show (if nodes = [] then none
    else some (sortByKey Prod.fst (nodes.map (fun n => (n, nmlParent t n))))) = _
  rw [if_neg hnn]

/-! ### Valid tree inputs -/

/-- One undirected step along the raw edge list: `a` and `b` are joined by some
input edge, in either orientation. -/
def EdgeStep (edges : List (Nat × Nat)) (a b : Nat) : Prop :=
  (a, b) ∈ edges ∨ (b, a) ∈ edges

/-- The input node set is connected by the input edges. -/
def Connected (nodes : List Nat) (edges : List (Nat × Nat)) : Prop :=
  ∀ a ∈ nodes, ∀ b ∈ nodes, Relation.ReflTransGen (EdgeStep edges) a b

theorem edgeStep_adj {edges : List (Nat × Nat)} {a b : Nat}
    (h : EdgeStep edges a b) : b ∈ nxAdj edges a := mem_nxAdj.mpr h

/-- Master lemma: on a nonempty edge list whose endpoints lie in a connected
node set, `nmlTree` succeeds; its output is a discovery sequence from the head
`s` of the graph's node list, whose targets are exactly the other nodes. -/
theorem tree_master {nodes : List Nat} {edges : List (Nat × Nat)}
    (hend : ∀ e ∈ edges, e.1 ∈ nodes ∧ e.2 ∈ nodes)
    (hconn : Connected nodes edges)
    (hne : edges ≠ []) :
    ∃ s tl out,
      nxNodes edges = s :: tl ∧
      nmlTree edges = some out ∧
      s ∈ nodes ∧
      GoodSeq [s] out ∧
      (out.map Prod.snd).Nodup ∧
      (∀ t ∈ out.map Prod.snd, t ∈ nxNodes edges ∧ t ≠ s) ∧
      (∀ n ∈ nodes, n ≠ s → n ∈ out.map Prod.snd) ∧
      (∀ e ∈ out, e.2 ∈ nxAdj edges e.1) ∧
      (∀ e ∈ out, e.1 ∈ nodes) ∧
      (∀ a ∈ nxNodes edges, a ∈ nodes) := by
  obtain ⟨e0, rest, rfl⟩ : ∃ e0 rest, edges = e0 :: rest := by
    cases edges with
    | nil => exact absurd rfl hne
    | cons e0 rest => exact ⟨e0, rest, rfl⟩
  set edges := e0 :: rest with hedges
  obtain ⟨tl, hA⟩ : ∃ tl, nxNodes edges = e0.1 :: tl := by
    rw [hedges, show e0 = (e0.1, e0.2) from rfl]
    exact nxNodes_head
  set s := e0.1 with hs
  have hAnodup : (nxNodes edges).Nodup := nxNodes_nodup edges
  have hAsub : ∀ a ∈ nxNodes edges, a ∈ nodes := by
    intro a ha
    rw [mem_nxNodes] at ha
    obtain ⟨e, he, hend'⟩ := ha
    rcases hend' with h | h
    · exact h ▸ (hend e he).1
    · exact h ▸ (hend e he).2
  have hsA : s ∈ nxNodes edges := by rw [hA]; exact List.mem_cons_self _ _
  have hsnodes : s ∈ nodes := hAsub s hsA
  set out := bfsLoop edges (nxNodes edges).length [s] [s] with hout
  have htree : nmlTree edges = some out := by
    rw [nmlTree, hA]
    rw [hout, hA]
  have hgood : GoodSeq [s] out := bfs_goodSeq edges _ [s] [s] (fun x hx => hx)
  have hTnodup : (out.map Prod.snd).Nodup := gs_targets_nodup hgood
  have hadj : ∀ e ∈ out, e.2 ∈ nxAdj edges e.1 := bfs_edges_adj edges _ [s] [s]
  have hTmem : ∀ t ∈ out.map Prod.snd, t ∈ nxNodes edges ∧ t ≠ s := by
    intro t ht
    rw [List.mem_map] at ht
    obtain ⟨e, he, rfl⟩ := ht
    refine ⟨nxAdj_sub (hadj e he), ?_⟩
    have := gs_target_not_seen hgood he
    simpa using this
  have hfuel : ((nxNodes edges).filter
      (fun n => !decide (n ∈ ([s] : List Nat)))).length + 1 ≤ (nxNodes edges).length := by
    have hdrop := @unvisited_drop (nxNodes edges) [] [s]
      hAnodup (List.nodup_singleton s)
      (fun c hc => by rw [List.mem_singleton] at hc; exact hc ▸ hsA)
      (fun c _ => List.not_mem_nil c)
    have hall : ((nxNodes edges).filter
        (fun n => !decide (n ∈ ([] : List Nat)))).length = (nxNodes edges).length := by
      rw [List.filter_eq_self.mpr]
      intro a _
      simp
    rw [List.nil_append] at hdrop
    simp only [List.length_singleton] at hdrop
    omega
  have hclosed : ∀ v ∈ [s] ++ out.map Prod.snd, ∀ c ∈ nxAdj edges v,
      c ∈ [s] ++ out.map Prod.snd := by
    refine bfs_closure edges (nxNodes edges).length [s] [s] hfuel
      (fun x hx => hx) (fun x hx => by rw [List.mem_singleton] at hx; exact hx ▸ hsA) ?_
    intro v hv hvq
    exact absurd hv hvq
  have hcomplete : ∀ n ∈ nodes, n ≠ s → n ∈ out.map Prod.snd := by
    intro n hn hns
    have hreach : Relation.ReflTransGen (fun a b => b ∈ nxAdj edges a) s n :=
      Relation.ReflTransGen.mono (fun a b h => edgeStep_adj h) (hconn s hsnodes n hn)
    have := reach_mem hclosed (List.mem_append_left _ (List.mem_singleton_self s)) hreach
    rw [List.mem_append, List.mem_singleton] at this
    rcases this with h | h
    · exact absurd h hns
    · exact h
  have hsrc : ∀ e ∈ out, e.1 ∈ nodes := by
    intro e he
    have := gs_source_mem hgood he
    rw [List.mem_append, List.mem_singleton] at this
    rcases this with h | h
    · exact h ▸ hsnodes
    · exact hAsub _ (hTmem _ h).1
  exact ⟨s, tl, out, hA, htree, hsnodes, hgood, hTnodup, hTmem, hcomplete, hadj,
    hsrc, hAsub⟩

/-! ### Claim C1 -/

/-- C1: for the input with node set `{1,2,3}` and edge set `{(1,2),(2,3)}`,
canonicalization (whose BFS starts at node 1, the first node of the graph
built from this edge list) produces exactly the parent mapping
`parent(1) = NONE (-1)`, `parent(2) = 1`, `parent(3) = 2`. -/
theorem C1_scenario_path3 :
    canonicalize [1, 2, 3] [(1, 2), (2, 3)] = some [(1, -1), (2, 1), (3, 2)] := by
  rfl

/-! ### Claim C2 -/

/-- C2 (counterexample): the single-node skeleton (node set `{1}`, no edges) is
a connected acyclic input — a valid tree — but canonicalization produces no
parent mapping at all: the graph built from the (empty) edge list has no
nodes, and `list(G.nodes)[0]` raises an `IndexError` (modelled by `none`),
contradicting the claim that every valid tree yields a mapping with exactly
one root. -/
theorem C2_counterexample :
    ([] : List (Nat × Nat)).length + 1 = ([1] : List Nat).length ∧
    Connected [1] ([] : List (Nat × Nat)) ∧
    canonicalize [1] ([] : List (Nat × Nat)) = none := by
  refine ⟨rfl, ?_, rfl⟩
  intro a ha b hb
  rw [List.mem_singleton] at ha hb
  rw [ha, hb]

/-- C2 (amended): for every input whose node set and edge set form a connected
acyclic graph *with at least one edge*, the parent mapping produced by
canonicalization has exactly one node whose parent is the sentinel -1, and
every other node's parent is drawn from the node set.  (Acyclicity is
expressed, given connectivity, by `|E| + 1 = |V|`.) -/
theorem C2_single_root {nodes : List Nat} {edges : List (Nat × Nat)}
    (hnd : nodes.Nodup)
    (hend : ∀ e ∈ edges, e.1 ∈ nodes ∧ e.2 ∈ nodes)
    (hconn : Connected nodes edges)
    (hacyc : edges.length + 1 = nodes.length)
    (hne : edges ≠ []) :
    ∃ m, canonicalize nodes edges = some m ∧
      m.countP (fun p => p.2 == -1) = 1 ∧
      ∀ p ∈ m, p.2 ≠ -1 → ∃ u ∈ nodes, (u : Int) = p.2 := by
  obtain ⟨s, tl, out, hA, htree, hsnodes, hgood, hTnodup, hTmem, hcomplete, hadj,
    hsrc, hAsub⟩ := tree_master hend hconn hne
  refine ⟨sortByKey Prod.fst (nodes.map (fun n => (n, nmlParent out n))), ?_, ?_, ?_⟩
  · exact canonicalize_eq htree (List.ne_nil_of_mem hsnodes)
  · rw [countP_sortByKey, List.countP_map]
    rw [show ((fun p : Nat × Int => p.2 == -1) ∘ fun n : Nat => (n, nmlParent out n))
        = fun n : Nat => nmlParent out n == -1 from rfl]
    have hpt : ∀ n ∈ nodes,
        (nmlParent out n == -1) = true ↔ (n == s) = true := by
      intro n hn
      simp only [beq_iff_eq]
      rw [nmlParent_eq_neg_one_iff]
      constructor
      · intro h
        by_contra hns
        exact h (hcomplete n hn hns)
      · intro heq hmem
        exact (hTmem n hmem).2 heq
    rw [List.countP_congr hpt]
    exact List.count_eq_one_of_mem hnd hsnodes
  · intro p hp hne1
    rw [mem_sortByKey, List.mem_map] at hp
    obtain ⟨n, hn, rfl⟩ := hp
    obtain ⟨e, he, he2, hpar⟩ := nmlParent_ne_neg_one hne1
    exact ⟨e.1, hsrc e he, hpar.symm⟩

/-- C2 (witness): the amended claim applied to the two-node tree
`nodes = [1,2]`, `edges = [(1,2)]`. -/
theorem C2_witness :
    ∃ m, canonicalize [1, 2] [(1, 2)] = some m ∧
      m.countP (fun p => p.2 == -1) = 1 ∧
      ∀ p ∈ m, p.2 ≠ -1 → ∃ u ∈ ([1, 2] : List Nat), (u : Int) = p.2 :=
  C2_single_root (by decide) (by decide)
    (by
      intro a ha b hb
      fin_cases ha <;> fin_cases hb
      · exact Relation.ReflTransGen.refl
      · exact Relation.ReflTransGen.single (Or.inl (List.mem_singleton_self _))
      · exact Relation.ReflTransGen.single (Or.inr (List.mem_singleton_self _))
      · exact Relation.ReflTransGen.refl)
    (by decide) (by decide)

/-! ### Claim C4 -/

/-- C4 (counterexample): with node table `[2, 1, 3]` (first node encountered:
2) and edge list `[(1,2),(2,3)]`, the BFS does *not* start at the first node
of the node table: the produced mapping roots the tree at node 1 (the first
endpoint of the first edge), and node 2 is not a root. -/
theorem C4_counterexample :
    ∃ m, canonicalize [2, 1, 3] [(1, 2), (2, 3)] = some m ∧
      (1, (-1 : Int)) ∈ m ∧ ((2 : Nat), (-1 : Int)) ∉ m :=
  ⟨[(1, -1), (2, 1), (3, 2)], rfl, by decide, by decide⟩

/-- C4 (amended): the BFS starts at the first node of the *graph built from
the edge list* — the first endpoint of the first edge — and that node becomes
a root (parent = -1) of the produced mapping whenever it occurs in the node
table. -/
theorem C4_root_is_first_edge_endpoint {nodes : List Nat} {u v : Nat}
    {rest : List (Nat × Nat)} (hu : u ∈ nodes) :
    ∃ m, canonicalize nodes ((u, v) :: rest) = some m ∧ (u, (-1 : Int)) ∈ m := by
  obtain ⟨tl, hA⟩ : ∃ tl, nxNodes ((u, v) :: rest) = u :: tl := nxNodes_head
  set edges := (u, v) :: rest with hedges
  set out := bfsLoop edges (nxNodes edges).length [u] [u] with hout
  have htree : nmlTree edges = some out := by
    rw [nmlTree, hA, hout, hA]
  refine ⟨sortByKey Prod.fst (nodes.map (fun n => (n, nmlParent out n))), ?_, ?_⟩
  · exact canonicalize_eq htree (List.ne_nil_of_mem hu)
  · have hgood : GoodSeq [u] out := bfs_goodSeq edges _ [u] [u] (fun x hx => hx)
    have hroot : nmlParent out u = -1 := by
      rw [nmlParent_eq_neg_one_iff]
      intro hmem
      rw [List.mem_map] at hmem
      obtain ⟨e, he, hsnd⟩ := hmem
      have := gs_target_not_seen hgood he
      rw [hsnd] at this
      exact this (List.mem_singleton_self u)
    rw [mem_sortByKey]
    exact List.mem_map.mpr ⟨u, hu, by rw [hroot]⟩

/-- C4 (witness): the amended claim at node table `[5, 7]` and edge list
`[(7, 5)]`: the root is 7, the first endpoint of the first edge. -/
theorem C4_witness :
    ∃ m, canonicalize [5, 7] [(7, 5)] = some m ∧ ((7 : Nat), (-1 : Int)) ∈ m :=
  C4_root_is_first_edge_endpoint (by decide)

/-! ### Claim C6 -/

/-- C6 (counterexample): with node set `{1,2,3}` and an edge `(3,4)` referring
to the unknown node 4, canonicalization raises nothing at all — it silently
produces the parent mapping for the node-table rows (the unknown node is
traversed but dropped from the output), contradicting the claimed
`DanglingEdgeError`. -/
theorem C6_counterexample :
    canonicalize [1, 2, 3] [(1, 2), (2, 3), (3, 4)]
      = some [(1, -1), (2, 1), (3, 2)] := by
  rfl

/-- C6 (amended): an edge list referring to identifiers outside the node set
does not trigger any dangling-edge check: for every *nonempty* node table and
every nonempty edge list (dangling or not), canonicalization produces a parent
mapping with exactly one row per node-table entry, whose keys are exactly the
node-table identifiers.  (An empty node table fails with `AttributeError` at
`nodes.node_id` — a failure independent of dangling edges.) -/
theorem C6_no_dangling_failure {nodes : List Nat} {edges : List (Nat × Nat)}
    (hne : edges ≠ []) (hnn : nodes ≠ []) :
    ∃ m, canonicalize nodes edges = some m ∧ m.length = nodes.length ∧
      (m.map Prod.fst).Perm nodes := by
  obtain ⟨e0, rest, rfl⟩ : ∃ e0 rest, edges = e0 :: rest := by
    cases edges with
    | nil => exact absurd rfl hne
    | cons e0 rest => exact ⟨e0, rest, rfl⟩
  obtain ⟨tl, hA⟩ : ∃ tl, nxNodes (e0 :: rest) = e0.1 :: tl := by
    rw [show e0 = (e0.1, e0.2) from rfl]
    exact nxNodes_head
  set edges := e0 :: rest with hedges
  set out := bfsLoop edges (nxNodes edges).length [e0.1] [e0.1] with hout
  have htree : nmlTree edges = some out := by
    rw [nmlTree, hA, hout, hA]
  refine ⟨sortByKey Prod.fst (nodes.map (fun n => (n, nmlParent out n))), ?_, ?_, ?_⟩
  · exact canonicalize_eq htree hnn
  · rw [length_sortByKey, List.length_map]
  · refine ((perm_sortByKey _ _).map Prod.fst).trans ?_
    rw [List.map_map,
      show List.map (Prod.fst ∘ fun n => (n, nmlParent out n)) nodes
        = List.map id nodes from rfl, List.map_id]

/-- C6 (witness): the amended claim at the dangling-edge scenario
(nodes `{1,2,3}`, edges `[(1,2),(2,3),(3,4)]` with 4 unknown). -/
theorem C6_witness :
    ∃ m, canonicalize [1, 2, 3] [(1, 2), (2, 3), (3, 4)] = some m ∧
      m.length = ([1, 2, 3] : List Nat).length ∧
      (m.map Prod.fst).Perm [1, 2, 3] :=
  C6_no_dangling_failure (by decide) (by decide)

/-! ### Claim C3: edge-faithfulness -/

/-- Canonical representative of an undirected edge. -/
def ucanon (e : Nat × Nat) : Nat × Nat :=
  if e.1 ≤ e.2 then e else (e.2, e.1)

theorem ucanon_swap (a b : Nat) : ucanon (a, b) = ucanon (b, a) := by
  unfold ucanon
  dsimp only
  split <;> split <;> simp only [Prod.mk.injEq] <;> omega

theorem ucanon_eq {x y : Nat × Nat} (h : ucanon x = ucanon y) :
    x = y ∨ x = (y.2, y.1) := by
  rcases x with ⟨a, b⟩
  rcases y with ⟨c, d⟩
  unfold ucanon at h
  dsimp only at h ⊢
  split at h <;> split at h <;>
    simp only [Prod.mk.injEq] at h ⊢ <;> omega

/-- On a connected acyclic input, every input edge is realized as a parent
link of the produced mapping, in one of the two orientations. -/
theorem C3_edge_faithful {nodes : List Nat} {edges : List (Nat × Nat)}
    (hnd : nodes.Nodup)
    (hend : ∀ e ∈ edges, e.1 ∈ nodes ∧ e.2 ∈ nodes)
    (hconn : Connected nodes edges)
    (hacyc : edges.length + 1 = nodes.length) :
    ∀ u v, (u, v) ∈ edges →
      ∃ m, canonicalize nodes edges = some m ∧
        ((v, (u : Int)) ∈ m ∨ (u, (v : Int)) ∈ m) := by
  intro u v huv
  have hne : edges ≠ [] := by
    intro h
    rw [h] at huv
    cases huv
  obtain ⟨s, tl, out, hA, htree, hsnodes, hgood, hTnodup, hTmem, hcomplete, hadj,
    hsrc, hAsub⟩ := tree_master hend hconn hne
  classical
  -- the BFS tree has exactly |nodes| - 1 edges
  have hTsubN : ∀ t ∈ out.map Prod.snd, t ∈ nodes :=
    fun t ht => hAsub t (hTmem t ht).1
  have hTfin : (out.map Prod.snd).toFinset = nodes.toFinset.erase s := by
    ext x
    rw [List.mem_toFinset, Finset.mem_erase, List.mem_toFinset]
    constructor
    · intro hx
      exact ⟨(hTmem x hx).2, hTsubN x hx⟩
    · rintro ⟨hxs, hxn⟩
      exact hcomplete x hxn hxs
  have houtlen : out.length = edges.length := by
    have h1 : (out.map Prod.snd).toFinset.card = (out.map Prod.snd).length :=
      List.toFinset_card_of_nodup hTnodup
    have h2 : nodes.toFinset.card = nodes.length :=
      List.toFinset_card_of_nodup hnd
    have h3 : (nodes.toFinset.erase s).card = nodes.toFinset.card - 1 :=
      Finset.card_erase_of_mem (List.mem_toFinset.mpr hsnodes)
    have h4 : (out.map Prod.snd).length = out.length := List.length_map _ _
    have h5 : nodes.length = edges.length + 1 := hacyc.symm
    rw [hTfin] at h1
    omega
  -- the undirected representatives of the tree edges are distinct ...
  have houtnd : out.Nodup := hTnodup.of_map Prod.snd
  have hucnd : (out.map ucanon).Nodup := by
    refine houtnd.map_on ?_
    intro x hx y hy hxy
    rcases ucanon_eq hxy with h | h
    · exact h
    · exfalso
      rw [h] at hx
      have hy' : (y.1, y.2) ∈ out := by
        rw [Prod.mk.eta]
        exact hy
      exact gs_no_reverse hgood hy' hx
  -- ... and each is the representative of an input edge
  have hucsub : ∀ z ∈ out.map ucanon, z ∈ edges.map ucanon := by
    intro z hz
    rw [List.mem_map] at hz ⊢
    obtain ⟨e, he, rfl⟩ := hz
    have := hadj e he
    rw [mem_nxAdj] at this
    rcases this with h | h
    · exact ⟨(e.1, e.2), h, by rw [Prod.mk.eta]⟩
    · exact ⟨(e.2, e.1), h, by rw [← ucanon_swap, Prod.mk.eta]⟩
  -- counting: the two Finsets coincide
  have hSF : (out.map ucanon).toFinset ⊆ (edges.map ucanon).toFinset := by
    intro z hz
    rw [List.mem_toFinset] at hz ⊢
    exact hucsub z hz
  have hFS : (out.map ucanon).toFinset = (edges.map ucanon).toFinset := by
    refine Finset.eq_of_subset_of_card_le hSF ?_
    have h1 : (out.map ucanon).toFinset.card = out.length := by
      rw [List.toFinset_card_of_nodup hucnd, List.length_map]
    have h2 : (edges.map ucanon).toFinset.card ≤ edges.length :=
      le_trans (List.toFinset_card_le _) (le_of_eq (List.length_map _ _))
    omega
  -- realize the given edge
  have hmem : ucanon (u, v) ∈ (out.map ucanon).toFinset := by
    rw [hFS, List.mem_toFinset]
    exact List.mem_map.mpr ⟨(u, v), huv, rfl⟩
  rw [List.mem_toFinset, List.mem_map] at hmem
  obtain ⟨e, he, heq⟩ := hmem
  refine ⟨sortByKey Prod.fst (nodes.map (fun n => (n, nmlParent out n))), ?_, ?_⟩
  · exact canonicalize_eq htree (List.ne_nil_of_mem (hend (u, v) huv).1)
  · rcases ucanon_eq heq with h | h
    · left
      rw [h] at he
      have hpar : nmlParent out v = (u : Int) := nmlParent_of_mem hTnodup he
      rw [mem_sortByKey]
      exact List.mem_map.mpr ⟨v, (hend (u, v) huv).2, by rw [hpar]⟩
    · right
      dsimp only at h
      rw [h] at he
      have hpar : nmlParent out u = (v : Int) := nmlParent_of_mem hTnodup he
      rw [mem_sortByKey]
      exact List.mem_map.mpr ⟨u, (hend (u, v) huv).1, by rw [hpar]⟩

/-- C3 (witness): edge-faithfulness at the three-node path (nodes `[1,2,3]`,
edges `[(1,2),(2,3)]`) for the input edge `(2,3)`. -/
theorem C3_witness :
    ∃ m, canonicalize [1, 2, 3] [(1, 2), (2, 3)] = some m ∧
      (((3 : Nat), (2 : Int)) ∈ m ∨ ((2 : Nat), (3 : Int)) ∈ m) := by
  have h12 : EdgeStep [(1, 2), (2, 3)] 1 2 := Or.inl (by decide)
  have h21 : EdgeStep [(1, 2), (2, 3)] 2 1 := Or.inr (by decide)
  have h23 : EdgeStep [(1, 2), (2, 3)] 2 3 := Or.inl (by decide)
  have h32 : EdgeStep [(1, 2), (2, 3)] 3 2 := Or.inr (by decide)
  refine C3_edge_faithful (by decide) (by decide) ?_ (by decide) 2 3 (by decide)
  intro a ha b hb
  fin_cases ha <;> fin_cases hb
  · exact Relation.ReflTransGen.refl
  · exact Relation.ReflTransGen.single h12
  · exact Relation.ReflTransGen.tail (Relation.ReflTransGen.single h12) h23
  · exact Relation.ReflTransGen.single h21
  · exact Relation.ReflTransGen.refl
  · exact Relation.ReflTransGen.single h23
  · exact Relation.ReflTransGen.tail (Relation.ReflTransGen.single h32) h21
  · exact Relation.ReflTransGen.single h32
  · exact Relation.ReflTransGen.refl

/-! ### Archive loop helpers -/

theorem nmxLoop_cons_hit {V : Type} (coerce : String → V)
    (attrs : Option (List (String × String))) (m : ZipMember) (rest : List ZipMember)
    (h : qualifies m.filename = true) :
    nmxLoop coerce attrs (m :: rest) = nmxHandle coerce attrs m := by
  cases rest with
  | nil => simp [nmxLoop, h]
  | cons m2 rest2 => simp [nmxLoop, h]

theorem nmxLoop_cons_skip {V : Type} (coerce : String → V)
    (attrs : Option (List (String × String))) (m : ZipMember) (rest : List ZipMember)
    (h : qualifies m.filename = false) (hne : rest ≠ []) :
    nmxLoop coerce attrs (m :: rest) = nmxLoop coerce attrs rest := by
  cases rest with
  | nil => exact absurd rfl hne
  | cons m2 rest2 => simp [nmxLoop, h]

/-! ### Claim C7 -/

/-- C7 (counterexample): a zip archive with *no members at all* trivially has
no qualifying member, yet the reader does raise: the leaked loop variable `f`
is still the buffer object when the warning line runs, and reading
`f.filename` from it raises `AttributeError` instead of logging a warning and
returning an absent result. -/
theorem C7_counterexample :
    nmxReadBuffer (fun s => s) (.bytes (some [])) (some [])
      = .error .attributeError := by
  rfl

/-- C7 (amended): for every archive with at least one member, none of which
qualifies (name ending in `.nml` and containing `skeleton`), the reader does
not raise: it returns an absent result and logs exactly one warning naming the
top-level path segment of the *last* member of the archive. -/
theorem C7_skip_and_warn {V : Type} (coerce : String → V)
    (members : List ZipMember) (attrs : Option (List (String × String)))
    (hne : members ≠ [])
    (hnq : ∀ m ∈ members, qualifies m.filename = false) :
    nmxReadBuffer coerce (.bytes (some members)) attrs
      = .ok (none, [warnMsg (members.getLast hne).filename]) := by
  rw [nmxReadBuffer]
  induction members with
  | nil => exact absurd rfl hne
  | cons m rest ih =>
    cases rest with
    | nil =>
      rw [show nmxLoop coerce attrs [m]
          = .ok (none, [warnMsg m.filename]) from by
        simp [nmxLoop, hnq m (List.mem_cons_self m [])]]
      rfl
    | cons m2 rest2 =>
      rw [nmxLoop_cons_skip coerce attrs m (m2 :: rest2)
        (hnq m (List.mem_cons_self _ _)) (List.cons_ne_nil m2 rest2)]
      rw [ih (List.cons_ne_nil m2 rest2)
        (fun m' hm' => hnq m' (List.mem_cons_of_mem m hm'))]
      rw [List.getLast_cons (List.cons_ne_nil m2 rest2)]

/-- C7 (witness): the amended claim at a one-member archive whose member does
not qualify; the warning names the member's top-level segment `arch`. -/
theorem C7_witness :
    nmxReadBuffer (fun s => s)
      (.bytes (some [⟨"arch/readme.txt", [], []⟩])) none
      = .ok (none, ["Skipped \"arch.nmx\": failed to import skeleton."]) :=
  C7_skip_and_warn (fun s => s) [⟨"arch/readme.txt", [], []⟩] none
    (List.cons_ne_nil _ _)
    (fun m hm => by
      rw [List.mem_singleton] at hm
      rw [hm]
      rfl)

/-! ### Claim C8 -/

/-- C8: a buffer whose `read` yields text rather than bytes is rejected with
the `raise ValueError(...)` guard (the spec's `InputTypeError`) before the zip
container is ever opened: the rejection happens for every text buffer,
whatever `attrs` is, and does not depend on the zip content at all. -/
theorem C8_text_rejected {V : Type} (coerce : String → V) (s : String)
    (attrs : Option (List (String × String))) :
    nmxReadBuffer coerce (.text s) attrs = .error .valueError := rfl

/-! ### Claim C10 -/

/-- C10: when the reader finds a qualifying member it assigns
`attrs['file']` and `attrs['id']`, mutating the caller-supplied dict in place
(first conjunct: with a dict `a` supplied, the returned attributes are `a`
extended with those two keys); consequently, if `attrs` is `None`, the
subscript assignment raises `TypeError` instead of returning a neuron record
(second conjunct). -/
theorem C10_attrs_mutation {V : Type} (coerce : String → V) :
    (∀ (pre post : List ZipMember) (m : ZipMember) (a : List (String × String))
        (rows : List (SkelRow V)),
      (∀ m2 ∈ pre, qualifies m2.filename = false) →
      qualifies m.filename = true →
      readNml coerce m.nodeTab m.edges = some rows →
      nmxReadBuffer coerce (.bytes (some (pre ++ m :: post))) (some a)
        = .ok (some ⟨rows, a ++ [("file", m.filename), ("id", topSegment m.filename)]⟩,
            []))
    ∧ ∀ (members : List ZipMember),
        (∃ m ∈ members, qualifies m.filename = true) →
        nmxReadBuffer coerce (.bytes (some members)) none = .error .typeError := by
  constructor
  · intro pre post m a rows hpre hq hread
    rw [nmxReadBuffer]
    induction pre with
    | nil =>
      rw [List.nil_append, nmxLoop_cons_hit coerce (some a) m post hq]
      rw [nmxHandle, hread]
    | cons p pre2 ih =>
      rw [List.cons_append,
        nmxLoop_cons_skip coerce (some a) p (pre2 ++ m :: post)
          (hpre p (List.mem_cons_self _ _)) (by simp),
        ih (fun m2 hm2 => hpre m2 (List.mem_cons_of_mem p hm2))]
  · intro members hq
    rw [nmxReadBuffer]
    induction members with
    | nil =>
      obtain ⟨m, hm, _⟩ := hq
      cases hm
    | cons m rest ih =>
      by_cases hqm : qualifies m.filename = true
      · rw [nmxLoop_cons_hit coerce none m rest hqm]
        rfl
      · have hrest : ∃ m2 ∈ rest, qualifies m2.filename = true := by
          obtain ⟨m2, hm2, hq2⟩ := hq
          rcases List.mem_cons.mp hm2 with rfl | hm2'
          · exact absurd hq2 hqm
          · exact ⟨m2, hm2', hq2⟩
        have hrne : rest ≠ [] := by
          obtain ⟨m2, hm2, _⟩ := hrest
          intro h
          rw [h] at hm2
          cases hm2
        rw [nmxLoop_cons_skip coerce none m rest
          (Bool.not_eq_true _ ▸ hqm : qualifies m.filename = false) hrne]
        exact ih hrest

/-- C10 (witness): both parts at a one-member archive holding a qualifying
two-node skeleton: with `attrs = {}` the result carries the `file` and `id`
keys; with `attrs = None` the read fails with `TypeError`. -/
theorem C10_witness :
    nmxReadBuffer (fun s => s)
      (.bytes (some [⟨"arch/skeleton_1.nml",
        [⟨1, "0", "0", "0", "1"⟩, ⟨2, "1", "0", "0", "1"⟩], [(1, 2)]⟩])) (some [])
      = .ok (some ⟨[⟨1, "0", "0", "0", "1", -1⟩, ⟨2, "1", "0", "0", "1", 1⟩],
          [("file", "arch/skeleton_1.nml"), ("id", "arch")]⟩, []) ∧
    nmxReadBuffer (fun s => s)
      (.bytes (some [⟨"arch/skeleton_1.nml",
        [⟨1, "0", "0", "0", "1"⟩, ⟨2, "1", "0", "0", "1"⟩], [(1, 2)]⟩])) none
      = .error .typeError :=
  ⟨(C10_attrs_mutation (fun s => s)).1 [] []
      ⟨"arch/skeleton_1.nml",
        [⟨1, "0", "0", "0", "1"⟩, ⟨2, "1", "0", "0", "1"⟩], [(1, 2)]⟩
      [] [⟨1, "0", "0", "0", "1", -1⟩, ⟨2, "1", "0", "0", "1", 1⟩]
      (fun m2 hm2 => by cases hm2) rfl rfl,
   (C10_attrs_mutation (fun s => s)).2 _
      ⟨⟨"arch/skeleton_1.nml",
        [⟨1, "0", "0", "0", "1"⟩, ⟨2, "1", "0", "0", "1"⟩], [(1, 2)]⟩,
        List.mem_cons_self _ _, rfl⟩⟩

/-! ### Renumbering lemmas -/

theorem renumber_get {V : Type} {rows : List (SkelRow V)}
    (hnd : (rows.map SkelRow.node_id).Nodup) (i : Nat) (h : i < rows.length) :
    renumber rows ((rows.get ⟨i, h⟩).node_id) = some (i + 1) := by
  induction rows generalizing i with
  | nil => cases h
  | cons r rest ih =>
    rw [List.map_cons, List.nodup_cons] at hnd
    cases i with
    | zero => simp [renumber]
    | succ i =>
      have hi : i < rest.length := by simpa using h
      have hne : r.node_id ≠ (rest.get ⟨i, hi⟩).node_id := by
        intro heq
        exact hnd.1 (heq ▸ List.mem_map.mpr ⟨_, rest.get_mem _ _, rfl⟩)
      rw [show (r :: rest).get ⟨i + 1, h⟩ = rest.get ⟨i, hi⟩ from rfl]
      rw [renumber, if_neg (fun heq => hne heq), ih hnd.2 i hi]
      rfl

theorem renumber_some {V : Type} {rows : List (SkelRow V)} {old k : Nat}
    (h : renumber rows old = some k) :
    ∃ i hi, (rows.get ⟨i, hi⟩).node_id = old ∧ k = i + 1 := by
  induction rows generalizing k with
  | nil => cases h
  | cons r rest ih =>
    rw [renumber] at h
    split at h
    · rename_i heq
      have hk1 : (1 : Nat) = k := by injection h
      exact ⟨0, by simp, heq, by omega⟩
    · cases hr : renumber rest old with
      | none => rw [hr] at h; cases h
      | some k2 =>
        rw [hr] at h
        obtain ⟨i, hi, hid, hk⟩ := ih hr
        refine ⟨i + 1, by simpa using hi, hid, ?_⟩
        have hk2 : k2 + 1 = k := by injection h
        omega

theorem newIdOf_get {V : Type} {rows : List (SkelRow V)}
    (hnd : (rows.map SkelRow.node_id).Nodup) (i : Nat) (h : i < rows.length) :
    newIdOf rows ((rows.get ⟨i, h⟩).node_id) = i + 1 := by
  rw [newIdOf, renumber_get hnd i h]
  rfl

theorem renumberInt_natCast {V : Type} (rows : List (SkelRow V)) (n : Nat) :
    renumberInt rows (n : Int) = (renumber rows n).map (fun k => (k : Int)) := by
  induction rows with
  | nil => rfl
  | cons r rest ih =>
    rw [renumberInt, renumber]
    by_cases heq : r.node_id = n
    · rw [if_pos (by exact_mod_cast heq), if_pos heq]
      rfl
    · rw [if_neg (by exact_mod_cast heq), if_neg heq, ih]
      cases renumber rest n <;> simp

theorem newParentOf_get {V : Type} {rows : List (SkelRow V)}
    (hnd : (rows.map SkelRow.node_id).Nodup) (j : Nat) (hj : j < rows.length) :
    newParentOf rows ((rows.get ⟨j, hj⟩).node_id : Int) = (j : Int) + 1 := by
  have hne : ((rows.get ⟨j, hj⟩).node_id : Int) ≠ -1 := by
    have h0 : (0 : Int) ≤ ((rows.get ⟨j, hj⟩).node_id : Int) := Int.natCast_nonneg _
    omega
  rw [newParentOf, if_neg hne, renumberInt_natCast, renumber_get hnd j hj]
  show ((j + 1 : Nat) : Int) = (j : Int) + 1
  push_cast
  rfl

theorem node_id_unique {V : Type} {rows : List (SkelRow V)}
    (hnd : (rows.map SkelRow.node_id).Nodup) {r1 r2 : SkelRow V}
    (h1 : r1 ∈ rows) (h2 : r2 ∈ rows) (h : r1.node_id = r2.node_id) : r1 = r2 := by
  obtain ⟨⟨i, hi⟩, rfl⟩ := List.mem_iff_get.mp h1
  obtain ⟨⟨j, hj⟩, rfl⟩ := List.mem_iff_get.mp h2
  have hmap : ∀ (k : Nat) (hk : k < rows.length),
      (rows.map SkelRow.node_id).get ⟨k, by simpa using hk⟩
        = (rows.get ⟨k, hk⟩).node_id := by
    intro k hk
    simp
  have hij : (⟨i, by simpa using hi⟩ : Fin (rows.map SkelRow.node_id).length)
      = ⟨j, by simpa using hj⟩ := by
    apply List.nodup_iff_injective_get.mp hnd
    rw [hmap i hi, hmap j hj]
    exact h
  have : i = j := by simpa using congrArg Fin.val hij
  subst this
  rfl

/-- The renumbered id of a member row equals (its index) + 1. -/
theorem newIdOf_mem {V : Type} {rows : List (SkelRow V)}
    (hnd : (rows.map SkelRow.node_id).Nodup) {r : SkelRow V} (hr : r ∈ rows) :
    ∃ i hi, rows.get ⟨i, hi⟩ = r ∧ newIdOf rows r.node_id = i + 1 := by
  obtain ⟨⟨i, hi⟩, rfl⟩ := List.mem_iff_get.mp hr
  exact ⟨i, hi, rfl, newIdOf_get hnd i hi⟩

theorem newParentOf_neg_one {V : Type} (rows : List (SkelRow V)) :
    newParentOf rows (-1) = -1 := by
  rw [newParentOf]
  simp

theorem length_filterMap_eq {α β : Type} (f : α → Option β) (l : List α) :
    (l.filterMap f).length = l.countP (fun a => (f a).isSome) := by
  induction l with
  | nil => rfl
  | cons a l ih =>
    rw [List.filterMap_cons, List.countP_cons]
    cases h : f a with
    | none => simpa [h] using ih
    | some b => simp [h, ih]

/-- The per-row edge emission function of `write_nml ∘ make_swc_table`. -/
def swcEdgeFun {V : Type} (rows : List (SkelRow V)) (r : SkelRow V) :
    Option XmlEdgeEl :=
  if newParentOf rows r.parent_id ≠ -1
  then some ⟨newParentOf rows r.parent_id, newIdOf rows r.node_id⟩
  else none

theorem writeNml_edges_eq {V : Type} (serial : V → String)
    (rows : List (SkelRow V)) :
    (writeNmlElements serial (make_swc_table rows)).2
      = rows.filterMap (swcEdgeFun rows) := by
  show (make_swc_table rows).filterMap _ = _
  rw [make_swc_table, List.filterMap_map]
  rfl

theorem swcEdgeFun_root {V : Type} (rows : List (SkelRow V)) (r : SkelRow V)
    (h : r.parent_id = -1) : swcEdgeFun rows r = none := by
  rw [swcEdgeFun, h, newParentOf_neg_one]
  simp

theorem swcEdgeFun_nonroot {V : Type} {rows : List (SkelRow V)}
    (hnd : (rows.map SkelRow.node_id).Nodup) (r : SkelRow V)
    (h : r.parent_id ≠ -1)
    (hres : ∃ r2 ∈ rows, (r2.node_id : Int) = r.parent_id) :
    ∃ j hj, ((rows.get ⟨j, hj⟩).node_id : Int) = r.parent_id ∧
      swcEdgeFun rows r = some ⟨(j : Int) + 1, newIdOf rows r.node_id⟩ := by
  obtain ⟨r2, hr2, hcast⟩ := hres
  obtain ⟨⟨j, hj⟩, rfl⟩ := List.mem_iff_get.mp hr2
  have hpar := newParentOf_get hnd j hj
  rw [hcast] at hpar
  refine ⟨j, hj, hcast, ?_⟩
  rw [swcEdgeFun, hpar, if_pos (by omega)]

theorem newIdOf_eq_iff {V : Type} {rows : List (SkelRow V)}
    (hnd : (rows.map SkelRow.node_id).Nodup) {r : SkelRow V} (hr : r ∈ rows)
    {i : Nat} (h : i < rows.length) :
    newIdOf rows r.node_id = i + 1 ↔ r = rows.get ⟨i, h⟩ := by
  constructor
  · intro heq
    obtain ⟨ir, hir, hget, hid⟩ := newIdOf_mem hnd hr
    have : ir = i := by omega
    subst this
    exact hget.symm
  · intro heq
    rw [heq]
    exact newIdOf_get hnd i h

/-! ### Claim C9 -/

/-- C9: for every tree-neuron record (rows with unique identifiers and
resolvable parents) handed to the encoder, the emitted XML contains exactly
one edge element per non-root row — with target the row's (renumbered)
identifier and source its parent row's (renumbered) identifier — and the root
row contributes no edge element. -/
theorem C9_one_edge_per_nonroot {V : Type} (serial : V → String)
    (rows : List (SkelRow V))
    (hnd : (rows.map SkelRow.node_id).Nodup)
    (hwf : ∀ r ∈ rows, r.parent_id ≠ -1 →
      ∃ r2 ∈ rows, (r2.node_id : Int) = r.parent_id) :
    (writeNmlElements serial (make_swc_table rows)).2.length
        = rows.countP (fun r => !(r.parent_id == -1)) ∧
    (∀ i (h : i < rows.length), (rows.get ⟨i, h⟩).parent_id ≠ -1 →
      ((writeNmlElements serial (make_swc_table rows)).2.countP
          (fun e => e.target == i + 1) = 1 ∧
        ∀ e ∈ (writeNmlElements serial (make_swc_table rows)).2, e.target = i + 1 →
          ∃ j hj, ((rows.get ⟨j, hj⟩).node_id : Int) = (rows.get ⟨i, h⟩).parent_id ∧
            e.source = (j : Int) + 1)) ∧
    (∀ i (h : i < rows.length), (rows.get ⟨i, h⟩).parent_id = -1 →
      ∀ e ∈ (writeNmlElements serial (make_swc_table rows)).2, e.target ≠ i + 1) := by
  rw [writeNml_edges_eq]
  have hmemE : ∀ e ∈ rows.filterMap (swcEdgeFun rows),
      ∃ r ∈ rows, r.parent_id ≠ -1 ∧ e.target = newIdOf rows r.node_id ∧
        ∃ j hj, ((rows.get ⟨j, hj⟩).node_id : Int) = r.parent_id ∧
          e.source = (j : Int) + 1 := by
    intro e he
    rw [List.mem_filterMap] at he
    obtain ⟨r, hr, hfr⟩ := he
    by_cases hroot : r.parent_id = -1
    · rw [swcEdgeFun_root rows r hroot] at hfr
      cases hfr
    · obtain ⟨j, hj, hcast, heq⟩ := swcEdgeFun_nonroot hnd r hroot (hwf r hr hroot)
      rw [heq] at hfr
      obtain rfl := Option.some.injEq _ _ ▸ hfr
      exact ⟨r, hr, hroot, rfl, j, hj, hcast, rfl⟩
  refine ⟨?_, ?_, ?_⟩
  · rw [length_filterMap_eq]
    refine List.countP_congr ?_
    intro r hr
    by_cases hroot : r.parent_id = -1
    · rw [swcEdgeFun_root rows r hroot]
      simp [hroot]
    · obtain ⟨j, hj, hcast, heq⟩ := swcEdgeFun_nonroot hnd r hroot (hwf r hr hroot)
      rw [heq]
      simp [hroot]
  · intro i h hi
    constructor
    · rw [List.countP_filterMap]
      have hcongr : ∀ r ∈ rows,
          (((swcEdgeFun rows r).map (fun e => e.target == i + 1)).getD false) = true
            ↔ (r.node_id == (rows.get ⟨i, h⟩).node_id) = true := by
        intro r hr
        simp only [beq_iff_eq]
        by_cases hroot : r.parent_id = -1
        · rw [swcEdgeFun_root rows r hroot]
          constructor
          · intro hfalse
            exact absurd hfalse (Bool.false_ne_true)
          · intro hid
            exfalso
            have := node_id_unique hnd hr (rows.get_mem _ _) hid
            rw [this] at hroot
            exact hi hroot
        · obtain ⟨j, hj, hcast, heq⟩ := swcEdgeFun_nonroot hnd r hroot (hwf r hr hroot)
          rw [heq]
          show ((newIdOf rows r.node_id == i + 1) = true) ↔ _
          rw [beq_iff_eq]
          constructor
          · intro htgt
            rw [(newIdOf_eq_iff hnd hr h).mp htgt]
          · intro hid
            have hreq := node_id_unique hnd hr (rows.get_mem _ _) hid
            exact (newIdOf_eq_iff hnd hr h).mpr hreq
      rw [List.countP_congr hcongr]
      rw [show (fun r : SkelRow V => r.node_id == (rows.get ⟨i, h⟩).node_id)
          = ((fun n => n == (rows.get ⟨i, h⟩).node_id) ∘ SkelRow.node_id) from rfl,
        ← List.countP_map]
      exact List.count_eq_one_of_mem hnd
        (List.mem_map.mpr ⟨_, rows.get_mem _ _, rfl⟩)
    · intro e he htgt
      obtain ⟨r, hr, hroot, htgt2, j, hj, hcast, hsrc⟩ := hmemE e he
      have : r = rows.get ⟨i, h⟩ :=
        (newIdOf_eq_iff hnd hr h).mp (by omega)
      rw [this] at hcast
      exact ⟨j, hj, hcast, hsrc⟩
  · intro i h hi e he htgt
    obtain ⟨r, hr, hroot, htgt2, _, _, _, _⟩ := hmemE e he
    have : r = rows.get ⟨i, h⟩ :=
      (newIdOf_eq_iff hnd hr h).mp (by omega)
    rw [this] at hroot
    exact hroot hi

/-- C9 (witness): the two-node scenario — root id 1, child id 2 with
parent 1 — yields exactly one edge element, `source="1" target="2"`, and no
edge element targeting the root. -/
theorem C9_witness :
    ((writeNmlElements id (make_swc_table
        [⟨1, "0", "0", "0", "1", -1⟩, (⟨2, "1", "0", "0", "1", 1⟩ : SkelRow String)])).2.length
      = ([⟨1, "0", "0", "0", "1", -1⟩,
          (⟨2, "1", "0", "0", "1", 1⟩ : SkelRow String)] : List (SkelRow String)).countP
            (fun r => !(r.parent_id == -1))) ∧
    ((writeNmlElements id (make_swc_table
        [⟨1, "0", "0", "0", "1", -1⟩, (⟨2, "1", "0", "0", "1", 1⟩ : SkelRow String)])).2
      = [⟨1, 2⟩]) := by
  have h := C9_one_edge_per_nonroot id
    [⟨1, "0", "0", "0", "1", -1⟩, (⟨2, "1", "0", "0", "1", 1⟩ : SkelRow String)]
    (by decide)
    (fun r hr hne => by
      fin_cases hr
      · exact absurd rfl hne
      · exact ⟨⟨1, "0", "0", "0", "1", -1⟩, by decide, by decide⟩)
  exact ⟨h.1, rfl⟩

/-! ### Claim C5: decode/encode round trip -/

theorem writeNml_nodes_eq {V : Type} (serial : V → String)
    (rows : List (SkelRow V)) :
    (writeNmlElements serial (make_swc_table rows)).1
      = rows.map (fun r =>
          ⟨newIdOf rows r.node_id, serial r.radius, serial r.x, serial r.y,
            serial r.z⟩) := by
  show (make_swc_table rows).map _ = _
  rw [make_swc_table, List.map_map]
  rfl

/-- C5: decoding a skeleton and re-encoding it reproduces every node's
position and radius values exactly (reading the emitted attribute strings back
through the configured coercion returns the decoded values), the emitted node
identifiers are pairwise distinct, the renumbering map is injective on the
record, and the emitted edge elements are exactly the image of the decoded
parent/child adjacency under that renumbering — i.e. the emitted tree is
isomorphic to the decoded one.  `coerce`/`serial` are the dtype coercion and
`str(...)` serialization (spec-external value marshaling), assumed mutually
inverse. -/
theorem C5_roundtrip {V : Type} (coerce : String → V) (serial : V → String)
    (hinv : ∀ v, coerce (serial v) = v)
    (nodeTab : List NmlNode) (edges : List (Nat × Nat)) (rows : List (SkelRow V))
    (hdec : readNml coerce nodeTab edges = some rows)
    (hnd : (rows.map SkelRow.node_id).Nodup)
    (hwf : ∀ r ∈ rows, r.parent_id ≠ -1 →
      ∃ r2 ∈ rows, (r2.node_id : Int) = r.parent_id) :
    (∀ i (h : i < rows.length),
      ∃ xn ∈ (writeNmlElements serial (make_swc_table rows)).1,
        xn.id = i + 1 ∧
        coerce xn.x = (rows.get ⟨i, h⟩).x ∧
        coerce xn.y = (rows.get ⟨i, h⟩).y ∧
        coerce xn.z = (rows.get ⟨i, h⟩).z ∧
        coerce xn.radius = (rows.get ⟨i, h⟩).radius) ∧
    ((writeNmlElements serial (make_swc_table rows)).1.map XmlNodeEl.id).Nodup ∧
    (∀ r1 ∈ rows, ∀ r2 ∈ rows,
      newIdOf rows r1.node_id = newIdOf rows r2.node_id → r1 = r2) ∧
    (∀ e, e ∈ (writeNmlElements serial (make_swc_table rows)).2 ↔
      ∃ r ∈ rows, r.parent_id ≠ -1 ∧
        e.target = newIdOf rows r.node_id ∧
        ∃ r2 ∈ rows, (r2.node_id : Int) = r.parent_id ∧
          e.source = (newIdOf rows r2.node_id : Int)) := by
  rw [writeNml_nodes_eq, writeNml_edges_eq]
  refine ⟨?_, ?_, ?_, ?_⟩
  · intro i h
    refine ⟨⟨newIdOf rows (rows.get ⟨i, h⟩).node_id,
        serial (rows.get ⟨i, h⟩).radius, serial (rows.get ⟨i, h⟩).x,
        serial (rows.get ⟨i, h⟩).y, serial (rows.get ⟨i, h⟩).z⟩,
      List.mem_map.mpr ⟨rows.get ⟨i, h⟩, rows.get_mem _ _, rfl⟩, ?_, ?_, ?_, ?_, ?_⟩
    · exact newIdOf_get hnd i h
    · exact hinv _
    · exact hinv _
    · exact hinv _
    · exact hinv _
  · rw [List.map_map]
    have hlist : rows.map (XmlNodeEl.id ∘ fun r =>
        (⟨newIdOf rows r.node_id, serial r.radius, serial r.x, serial r.y,
          serial r.z⟩ : XmlNodeEl))
        = (List.range rows.length).map (· + 1) := by
      refine List.ext_get (by simp) ?_
      intro n h1 h2
      have hn : n < rows.length := by simpa using h1
      have hget1 : (rows.map (XmlNodeEl.id ∘ fun r =>
          (⟨newIdOf rows r.node_id, serial r.radius, serial r.x, serial r.y,
            serial r.z⟩ : XmlNodeEl))).get ⟨n, h1⟩
          = newIdOf rows ((rows.get ⟨n, hn⟩).node_id) := by
        simp
      rw [hget1, newIdOf_get hnd n hn]
      simp
    rw [hlist]
    exact (List.nodup_range _).map (fun a b hab => by omega)
  · intro r1 hr1 r2 hr2 heq
    obtain ⟨i1, hi1, hget1, hid1⟩ := newIdOf_mem hnd hr1
    obtain ⟨i2, hi2, hget2, hid2⟩ := newIdOf_mem hnd hr2
    have : i1 = i2 := by omega
    subst this
    rw [← hget1, ← hget2]
  · intro e
    constructor
    · intro he
      rw [List.mem_filterMap] at he
      obtain ⟨r, hr, hfr⟩ := he
      by_cases hroot : r.parent_id = -1
      · rw [swcEdgeFun_root rows r hroot] at hfr
        cases hfr
      · obtain ⟨j, hj, hcast, heq⟩ := swcEdgeFun_nonroot hnd r hroot (hwf r hr hroot)
        rw [heq] at hfr
        obtain rfl := Option.some.injEq _ _ ▸ hfr
        refine ⟨r, hr, hroot, rfl, rows.get ⟨j, hj⟩, rows.get_mem _ _, hcast, ?_⟩
        rw [newIdOf_get hnd j hj]
        push_cast
        rfl
    · rintro ⟨r, hr, hroot, htgt, r2, hr2, hcast, hsrc⟩
      rw [List.mem_filterMap]
      refine ⟨r, hr, ?_⟩
      obtain ⟨j, hj, hcast2, heq⟩ := swcEdgeFun_nonroot hnd r hroot (hwf r hr hroot)
      rw [heq]
      have hr2j : r2 = rows.get ⟨j, hj⟩ := by
        refine node_id_unique hnd hr2 (rows.get_mem _ _) ?_
        have : (r2.node_id : Int) = ((rows.get ⟨j, hj⟩).node_id : Int) := by
          rw [hcast, hcast2]
        exact_mod_cast this
      have hsrc2 : e.source = (j : Int) + 1 := by
        rw [hsrc, hr2j, newIdOf_get hnd j hj]
        push_cast
        rfl
      cases e with
      | mk src tgt =>
        simp only [Option.some.injEq]
        dsimp only at htgt hsrc2
        rw [htgt, hsrc2]

/-- C5 (witness): the round-trip property at the concrete two-node skeleton
(node table ids 1 and 2, edge `(1,2)`), with `V = String` and the identity
coercion/serialization pair. -/
theorem C5_witness :
    (∀ i (h : i < ([⟨1, "0", "0", "0", "1", -1⟩,
        (⟨2, "1", "0", "0", "1", 1⟩ : SkelRow String)] : List (SkelRow String)).length),
      ∃ xn ∈ (writeNmlElements id (make_swc_table
          [⟨1, "0", "0", "0", "1", -1⟩,
            (⟨2, "1", "0", "0", "1", 1⟩ : SkelRow String)])).1,
        xn.id = i + 1 ∧
        id xn.x = (([⟨1, "0", "0", "0", "1", -1⟩,
            (⟨2, "1", "0", "0", "1", 1⟩ : SkelRow String)] :
              List (SkelRow String)).get ⟨i, h⟩).x ∧
        id xn.y = (([⟨1, "0", "0", "0", "1", -1⟩,
            (⟨2, "1", "0", "0", "1", 1⟩ : SkelRow String)] :
              List (SkelRow String)).get ⟨i, h⟩).y ∧
        id xn.z = (([⟨1, "0", "0", "0", "1", -1⟩,
            (⟨2, "1", "0", "0", "1", 1⟩ : SkelRow String)] :
              List (SkelRow String)).get ⟨i, h⟩).z ∧
        id xn.radius = (([⟨1, "0", "0", "0", "1", -1⟩,
            (⟨2, "1", "0", "0", "1", 1⟩ : SkelRow String)] :
              List (SkelRow String)).get ⟨i, h⟩).radius) ∧
    ((writeNmlElements id (make_swc_table
        [⟨1, "0", "0", "0", "1", -1⟩,
          (⟨2, "1", "0", "0", "1", 1⟩ : SkelRow String)])).1.map XmlNodeEl.id).Nodup ∧
    (∀ r1 ∈ ([⟨1, "0", "0", "0", "1", -1⟩,
        (⟨2, "1", "0", "0", "1", 1⟩ : SkelRow String)] : List (SkelRow String)),
      ∀ r2 ∈ ([⟨1, "0", "0", "0", "1", -1⟩,
        (⟨2, "1", "0", "0", "1", 1⟩ : SkelRow String)] : List (SkelRow String)),
      newIdOf [⟨1, "0", "0", "0", "1", -1⟩,
          (⟨2, "1", "0", "0", "1", 1⟩ : SkelRow String)] r1.node_id
        = newIdOf [⟨1, "0", "0", "0", "1", -1⟩,
          (⟨2, "1", "0", "0", "1", 1⟩ : SkelRow String)] r2.node_id → r1 = r2) ∧
    (∀ e, e ∈ (writeNmlElements id (make_swc_table
        [⟨1, "0", "0", "0", "1", -1⟩,
          (⟨2, "1", "0", "0", "1", 1⟩ : SkelRow String)])).2 ↔
      ∃ r ∈ ([⟨1, "0", "0", "0", "1", -1⟩,
          (⟨2, "1", "0", "0", "1", 1⟩ : SkelRow String)] : List (SkelRow String)),
        r.parent_id ≠ -1 ∧
        e.target = newIdOf [⟨1, "0", "0", "0", "1", -1⟩,
          (⟨2, "1", "0", "0", "1", 1⟩ : SkelRow String)] r.node_id ∧
        ∃ r2 ∈ ([⟨1, "0", "0", "0", "1", -1⟩,
            (⟨2, "1", "0", "0", "1", 1⟩ : SkelRow String)] : List (SkelRow String)),
          (r2.node_id : Int) = r.parent_id ∧
          e.source = (newIdOf [⟨1, "0", "0", "0", "1", -1⟩,
            (⟨2, "1", "0", "0", "1", 1⟩ : SkelRow String)] r2.node_id : Int)) :=
  C5_roundtrip id id (fun v => rfl)
    [⟨1, "0", "0", "0", "1"⟩, ⟨2, "1", "0", "0", "1"⟩] [(1, 2)]
    [⟨1, "0", "0", "0", "1", -1⟩, (⟨2, "1", "0", "0", "1", 1⟩ : SkelRow String)]
    rfl (by decide)
    (fun r hr hne => by
      fin_cases hr
      · exact absurd rfl hne
      · exact ⟨⟨1, "0", "0", "0", "1", -1⟩, by decide, by decide⟩)

end Nmx
